import Mathlib

/-!
Shallow embedding of the Codebase-Parser program (src/main.py) and proofs
about its specified behaviour.

Filesystem paths are modelled as lists of path components (root-to-leaf,
absolute, without the leading "/" marker).  A directory entry produced by
`Path.rglob` is a path plus a flag telling whether it is a regular file.
The filesystem's readable state is an oracle mapping paths to read
outcomes.  All machine behaviour (scanning, filtering, formatting,
statistics, analysis, the CLI dispatch) is translated from the source.
-/

set_option maxHeartbeats 1000000

/-- Characters treated as whitespace: used for Python's `str.strip` and for
the regex class `\s` (ASCII whitespace plus common Unicode separators). -/
def pyIsSpace (c : Char) : Bool :=
  c = ' ' || c = '\t' || c = '\n' || c = '\x0b' || c = '\x0c' || c = '\r' ||
  c = '\x1c' || c = '\x1d' || c = '\x1e' || c = '\x85' || c = '\xa0' ||
  c = '\u2028' || c = '\u2029' || c = '\u3000'

/-- Line-break characters recognised by Python's `str.splitlines`. -/
def isLineBreak (c : Char) : Bool :=
  c = '\n' || c = '\r' || c = '\x0b' || c = '\x0c' || c = '\x1c' || c = '\x1d' ||
  c = '\x1e' || c = '\x85' || c = '\u2028' || c = '\u2029'

/-- Worker for `pySplitlines`; `acc` holds the current (reversed) line. -/
def pySplitlinesAux : List Char → List Char → List (List Char)
  | [], acc => if acc.isEmpty then [] else [acc.reverse]
  | '\r' :: '\n' :: cs, acc => acc.reverse :: pySplitlinesAux cs []
  | c :: cs, acc =>
    if isLineBreak c then acc.reverse :: pySplitlinesAux cs []
    else pySplitlinesAux cs (c :: acc)

/-- Python's `str.splitlines()` (line terminators stripped; `""` gives `[]`). -/
def pySplitlines (s : String) : List (List Char) := pySplitlinesAux s.data []

/-- Python's `str.strip()` on a character list. -/
def pyStrip (l : List Char) : List Char :=
  ((l.dropWhile pyIsSpace).reverse.dropWhile pyIsSpace).reverse

/-- Python's `str.strip()` on a string. -/
def pyStripStr (s : String) : String := ⟨pyStrip s.data⟩

/-- Python's `str.endswith`. -/
def strEndsWith (s suf : String) : Bool := suf.data.isSuffixOf s.data

/-- Python's `pattern[1:]` slice on a string. -/
def strDropOne (s : String) : String := ⟨s.data.drop 1⟩

/-- ASCII lower-casing, modelling `str.lower()` on the extension strings used here. -/
def strToLower (s : String) : String := ⟨s.data.map Char.toLower⟩

/-- Code-point lexicographic order on character lists, as Python's `sorted`
compares strings. -/
def charListLe : List Char → List Char → Bool
  | [], _ => true
  | _ :: _, [] => false
  | a :: as, b :: bs => if a = b then charListLe as bs else decide (a < b)

/-- Python's `<=` comparison on strings (code-point lexicographic). -/
def strLeB (a b : String) : Bool := charListLe a.data b.data

/-- A filesystem entry visited by `Path.rglob`: its absolute path (as
components) and whether it is a regular file (otherwise a directory). -/
structure Entry where
  path : List String
  isFile : Bool
deriving DecidableEq, Repr

/-- Python's `Path.name`: the final path component (empty for the filesystem root). -/
def entryName (e : Entry) : String := e.path.getLastD ""

/-- The configurable rule sets of `CodebaseParser.__init__`. -/
structure ScanConfig where
  ignore_dirs : List String
  ignore_files : List String
  code_extensions : List String
deriving Repr

/-- The literal `code_extensions` set from `CodebaseParser.__init__`. -/
def default_code_extensions : List String :=
  [".py", ".js", ".ts", ".tsx", ".jsx", ".java", ".cpp", ".cc", ".cxx",
   ".c", ".h", ".hpp", ".cs", ".php", ".rb", ".go", ".rs", ".kt",
   ".swift", ".m", ".mm", ".scala", ".clj", ".hs", ".ml", ".fs",
   ".dart", ".lua", ".r", ".pl", ".sh", ".bash", ".zsh", ".fish",
   ".sql", ".json", ".xml", ".yaml", ".yml", ".toml", ".ini", ".cfg"]

/-- The literal `ignore_dirs` set from `CodebaseParser.__init__`. -/
def default_ignore_dirs : List String :=
  ["node_modules", "__pycache__", ".git", ".svn", ".hg", "build",
   "dist", "target", "bin", "obj", ".gradle", ".idea", ".vscode",
   "vendor", "coverage", ".nyc_output", "logs", "tmp", "temp",
   ".next", ".nuxt", "out", "public/build", "venv", "env", ".env"]

/-- The literal `ignore_files` set from `CodebaseParser.__init__`. -/
def default_ignore_files : List String :=
  [".gitignore", ".dockerignore", "package-lock.json", "yarn.lock",
   "Pipfile.lock", "poetry.lock", ".DS_Store", "Thumbs.db",
   "desktop.ini", "*.log", "*.tmp", "*.temp"]

/-- The configuration a freshly constructed `CodebaseParser` carries. -/
def defaultConfig : ScanConfig :=
  { ignore_dirs := default_ignore_dirs,
    ignore_files := default_ignore_files,
    code_extensions := default_code_extensions }

/-- Names of `path.parents` for an absolute path: every component except the
last, plus the empty name of the filesystem root itself. -/
def parentNames (p : List String) : List String := p.dropLast ++ [""]

/-- Translation of `CodebaseParser.should_ignore_path`. -/
def should_ignore_path (cfg : ScanConfig) (e : Entry) : Bool :=
  if (parentNames e.path).any (fun d => cfg.ignore_dirs.contains d) then true
  else if !e.isFile && cfg.ignore_dirs.contains (entryName e) then true
  else if e.isFile then
    if cfg.ignore_files.contains (entryName e) then true
    else cfg.ignore_files.any (fun p =>
      p.data.contains '*' && strEndsWith (entryName e) (strDropOne p))
  else false

/-- Index of the last dot in a character list, if any. -/
def lastDotIdx : List Char → Option Nat
  | [] => none
  | c :: cs =>
    match lastDotIdx cs with
    | some j => some (j + 1)
    | none => if c = '.' then some 0 else none

/-- Python's `PurePath.suffix` of a file name: the part from the final dot on,
provided that dot is neither the first nor the last character. -/
def pySuffix (name : String) : String :=
  match lastDotIdx name.data with
  | some i => if 0 < i ∧ i + 1 < name.data.length then ⟨name.data.drop i⟩ else ""
  | none => ""

/-- Python's `PurePath.stem`: the file name with `pySuffix` removed. -/
def pyStem (name : String) : String :=
  let suf := pySuffix name
  if suf = "" then name else ⟨name.data.take (name.data.length - suf.data.length)⟩

/-- Translation of `CodebaseParser.is_code_file`. -/
def is_code_file (cfg : ScanConfig) (e : Entry) : Bool :=
  cfg.code_extensions.contains (strToLower (pySuffix (entryName e)))

/-- The literal `lang_map` of `get_language_from_extension`. -/
def lang_map : List (String × String) :=
  [(".py", "Python"), (".js", "JavaScript"), (".ts", "TypeScript"),
   (".tsx", "TypeScript React"), (".jsx", "JavaScript React"),
   (".java", "Java"), (".cpp", "C++"), (".cc", "C++"), (".cxx", "C++"),
   (".c", "C"), (".h", "C/C++ Header"), (".hpp", "C++ Header"),
   (".cs", "C#"), (".php", "PHP"), (".rb", "Ruby"), (".go", "Go"),
   (".rs", "Rust"), (".kt", "Kotlin"), (".swift", "Swift"),
   (".m", "Objective-C"), (".mm", "Objective-C++"), (".scala", "Scala"),
   (".clj", "Clojure"), (".hs", "Haskell"), (".ml", "OCaml"), (".fs", "F#"),
   (".dart", "Dart"), (".lua", "Lua"), (".r", "R"), (".pl", "Perl"),
   (".sh", "Shell"), (".bash", "Bash"), (".zsh", "Zsh"), (".fish", "Fish"),
   (".sql", "SQL"), (".json", "JSON"), (".xml", "XML"), (".yaml", "YAML"),
   (".yml", "YAML"), (".toml", "TOML"), (".ini", "INI"), (".cfg", "Config")]

/-- Translation of `CodebaseParser.get_language_from_extension`. -/
def get_language_from_extension (extension : String) : String :=
  match lang_map.find? (fun p => p.1 == strToLower extension) with
  | some p => p.2
  | none => "Unknown"

/-- Python's `item.relative_to(root)` as components (assumes `root` is a
path-component-wise ancestor of `p`, which `rglob` guarantees). -/
def relParts (root p : List String) : List String := p.drop root.length

/-- Python's `PurePath.name` on a component list (empty path gives `""`). -/
def purePathName (parts : List String) : String := parts.getLastD ""

/-- Joins path components with `/` (no leading slash). -/
def joinSlash : List String → String
  | [] => ""
  | [x] => x
  | x :: xs => x ++ "/" ++ joinSlash xs

/-- Python's `str(PurePath)` on a relative component list: `.` for the empty path. -/
def purePathStr (parts : List String) : String :=
  if parts.isEmpty then "." else joinSlash parts

/-- Python's `str(Path)` for an absolute path. -/
def pathStr (p : List String) : String := "/" ++ joinSlash p

/-- The directory key `scan_directory` computes for a retained file:
`str(rel_path.parent) if rel_path.parent.name != '.' else 'root'`. -/
def parentDirKey (root p : List String) : String :=
  let parentParts := (relParts root p).dropLast
  if purePathName parentParts ≠ "." then purePathStr parentParts else "root"

/-- Dict insertion: appends `e` to the list at key `k`, adding the key at the
end when absent (models `dict` insertion order in `scan_directory`). -/
def insertAppend : List (String × List Entry) → String → Entry → List (String × List Entry)
  | [], k, e => [(k, [e])]
  | (k0, l) :: rest, k, e =>
    if k0 = k then (k0, l ++ [e]) :: rest else (k0, l) :: insertAppend rest k e

/-- Body of the `rglob` loop in `CodebaseParser.scan_directory`. -/
def scanStep (cfg : ScanConfig) (root : List String)
    (st : List (String × List Entry)) (item : Entry) : List (String × List Entry) :=
  if should_ignore_path cfg item then st
  else if item.isFile && is_code_file cfg item then
    insertAppend st (parentDirKey root item.path) item
  else st

/-- Translation of `CodebaseParser.scan_directory`: folds the enumeration of
the tree under `root` through filtering and grouping. -/
def scan_directory (cfg : ScanConfig) (root : List String) (entries : List Entry) :
    List (String × List Entry) :=
  entries.foldl (scanStep cfg root) []

/-- The retention predicate applied by the scan loop before grouping. -/
def keepEntry (cfg : ScanConfig) (e : Entry) : Bool :=
  !should_ignore_path cfg e && (e.isFile && is_code_file cfg e)

/-- Outcome of attempting to read one file, abstracting the host filesystem:
UTF-8 success, latin-1 fallback success, or the two failure branches of
`read_file_content`. -/
inductive ReadOutcome where
  | ok (text : String)
  | latinOk (text : String)
  | latinErr (err : String)
  | ioErr (err : String)
deriving DecidableEq, Repr

/-- Translation of `CodebaseParser.read_file_content`: decoded text, or a
placeholder string embedding the error description. -/
def read_file_content : ReadOutcome → String
  | .ok t => t
  | .latinOk t => t
  | .latinErr e => "Error reading file: " ++ e
  | .ioErr e => "Error reading file: " ++ e

/-- Python's `char * n` string repetition. -/
def repChar (n : Nat) (c : Char) : String := ⟨List.replicate n c⟩

/-- Translation of `CodebaseParser.generate_separator` (default arguments). -/
def generate_separator (text : String) : String :=
  repChar 43 '-' ++ text ++ repChar 43 '-'

/-- The `"=" * 100` divider. -/
def eqLine : String := repChar 100 '='

/-- The `"-" * 100` divider. -/
def dashLine : String := repChar 100 '-'

/-- Python's `"  " * n` indentation. -/
def indentStr (n : Nat) : String := repChar (2 * n) ' '

/-- The `sorted(structure.keys())` list both formatters iterate over. -/
def sortedDirs (st : List (String × List Entry)) : List String :=
  List.insertionSort (fun a b => strLeB a b = true) (st.map Prod.fst)

/-- Python dict access `structure[directory]` (the scanned mapping). -/
def lookupGroup (st : List (String × List Entry)) (k : String) : List Entry :=
  match st.find? (fun p => p.1 == k) with
  | some p => p.2
  | none => []

/-- The `sorted(structure[directory], key=lambda x: x.name)` file list. -/
def sortFilesByName (files : List Entry) : List Entry :=
  List.insertionSort (fun a b => strLeB (entryName a) (entryName b) = true) files

/-- The indented per-component header lines one directory key contributes to
the tree (the `'root'` branch prints a bare dot). -/
def dirHeaderLines (directory : String) : List String :=
  if directory = "root" then ["."]
  else (directory.splitOn "/").enum.map (fun p => indentStr p.1 ++ p.2)

/-- The tree line printed for one retained file. -/
def fileTreeLine (root : List String) (e : Entry) : String :=
  let rel := relParts root e.path
  indentStr ((rel.length - 1) + 1) ++ entryName e

/-- Translation of `CodebaseParser.format_directory_structure`. -/
def format_directory_structure (root : List String) (st : List (String × List Entry)) : String :=
  let lines :=
    ["Code Structure:"] ++
    (sortedDirs st).flatMap (fun directory =>
      dirHeaderLines directory ++
      (sortFilesByName (lookupGroup st directory)).map (fileTreeLine root))
  String.intercalate "\n" lines

/-- The lines `generate_code_output` appends for one file: separator, `File:`
header, divider, the content (or the unreadable-file placeholder when the
content string is falsy, i.e. empty), and the trailing divider block. -/
def fileSection (rd : List String → ReadOutcome) (root : List String)
    (directory : String) (e : Entry) : List String :=
  let rel := relParts root e.path
  let fileName := pyStem (entryName e)
  let header := if directory = "root" then fileName else directory ++ "/" ++ fileName
  let content := read_file_content (rd e.path)
  [generate_separator header, "File: " ++ purePathStr rel, dashLine] ++
  (if content ≠ "" then [content] else ["// Unable to read file content"]) ++
  ["\n" ++ eqLine ++ "\n"]

/-- Translation of `CodebaseParser.generate_code_output`. -/
def generate_code_output (rd : List String → ReadOutcome) (root : List String)
    (st : List (String × List Entry)) : String :=
  let lines :=
    [format_directory_structure root st, "\n" ++ eqLine ++ "\n"] ++
    (sortedDirs st).flatMap (fun directory =>
      (sortFilesByName (lookupGroup st directory)).flatMap (fileSection rd root directory))
  String.intercalate "\n" lines

/-- The statistics record built by `get_project_stats`. -/
structure ProjectStats where
  total_files : Nat
  total_directories : Nat
  total_lines : Nat
  languages : List (String × Nat)
deriving DecidableEq, Repr

/-- Python's `languages[language] = languages.get(language, 0) + 1` on an
insertion-ordered dict. -/
def bumpLang : List (String × Nat) → String → List (String × Nat)
  | [], lang => [(lang, 1)]
  | (l, n) :: rest, lang =>
    if l = lang then (l, n + 1) :: rest else (l, n) :: bumpLang rest lang

/-- Number of lines `get_project_stats` adds for one file: the splitlines
count of its content when that content string is truthy (non-empty). -/
def fileLineCount (rd : List String → ReadOutcome) (e : Entry) : Nat :=
  let content := read_file_content (rd e.path)
  if content ≠ "" then (pySplitlines content).length else 0

/-- Per-file step of the `get_project_stats` inner loop. -/
def statsStep (rd : List String → ReadOutcome) (acc : ProjectStats) (e : Entry) : ProjectStats :=
  { acc with
    total_lines := acc.total_lines + fileLineCount rd e,
    languages := bumpLang acc.languages (get_language_from_extension (pySuffix (entryName e))) }

/-- Translation of `CodebaseParser.get_project_stats`. -/
def get_project_stats (rd : List String → ReadOutcome)
    (st : List (String × List Entry)) : ProjectStats :=
  st.foldl
    (fun acc kv =>
      kv.2.foldl (statsStep rd) { acc with total_files := acc.total_files + kv.2.length })
    { total_files := 0, total_directories := st.length, total_lines := 0, languages := [] }

/-- Python's lexicographic order on `(str, int)` pairs, used by
`sorted(stats['languages'].items())`. -/
def pairLeB (a b : String × Nat) : Bool :=
  if a.1 = b.1 then decide (a.2 ≤ b.2) else strLeB a.1 b.1

/-- The `sorted(stats['languages'].items())` list of the summary. -/
def sortLangs (langs : List (String × Nat)) : List (String × Nat) :=
  List.insertionSort (fun a b => pairLeB a b = true) langs

/-- Decimal rendering of a count. -/
def natStr (n : Nat) : String := toString n

/-- Translation of `CodebaseParser.generate_summary`. -/
def generate_summary (root : List String) (st : List (String × List Entry))
    (stats : ProjectStats) : String :=
  let lines :=
    [eqLine, "CODEBASE SUMMARY", eqLine,
     "Total Files: " ++ natStr stats.total_files,
     "Total Directories: " ++ natStr stats.total_directories,
     "Total Lines of Code: " ++ natStr stats.total_lines,
     "Root Directory: " ++ pathStr root,
     "",
     "Languages Found:"] ++
    (sortLangs stats.languages).map (fun p => "  " ++ p.1 ++ ": " ++ natStr p.2 ++ " files") ++
    ["", "Directory Overview:"] ++
    (sortedDirs st).map (fun d => "  " ++ d ++ ": " ++ natStr (lookupGroup st d).length ++ " files") ++
    [eqLine]
  String.intercalate "\n" lines

/-- The full text `parse_and_output` writes to the output file: summary, a
blank line, then the detailed code output. -/
def writtenReport (cfg : ScanConfig) (root : List String)
    (rd : List String → ReadOutcome) (entries : List Entry) : String :=
  let st := scan_directory cfg root entries
  let stats := get_project_stats rd st
  generate_summary root st stats ++ "\n\n" ++ generate_code_output rd root st

/-- The host-visible state a run interacts with: whether the resolved root
exists, the `rglob` enumeration beneath it, the per-file read outcomes, and
whether opening/writing the output file succeeds. -/
structure World where
  rootExists : Bool
  entries : List Entry
  rd : List String → ReadOutcome
  writeOk : Bool

/-- Observable result of `parse_and_output`: the returned boolean, whether
the output path was ever opened for writing, and the diagnostics printed. -/
structure RunResult where
  success : Bool
  openedOutput : Bool
  messages : List String
deriving DecidableEq, Repr

/-- Translation of `CodebaseParser.parse_and_output`: existence check, scan,
empty-scan check, then (only then) opening and writing the output file. -/
def parse_and_output (cfg : ScanConfig) (root : List String) (outputFile : String)
    (w : World) : RunResult :=
  let msgs := ["Parsing codebase in: " ++ pathStr root, "Output file: " ++ outputFile]
  if !w.rootExists then
    { success := false, openedOutput := false,
      messages := msgs ++ ["Error: Directory " ++ pathStr root ++ " does not exist"] }
  else
    let msgs := msgs ++ ["Scanning directory structure..."]
    let st := scan_directory cfg root w.entries
    if st.isEmpty then
      { success := false, openedOutput := false,
        messages := msgs ++ ["No code files found in the specified directory"] }
    else
      let stats := get_project_stats w.rd st
      let msgs := msgs ++
        ["Found " ++ natStr stats.total_files ++ " code files in " ++
           natStr stats.total_directories ++ " directories",
         "Generating formatted output..."]
      if w.writeOk then
        { success := true, openedOutput := true,
          messages := msgs ++ ["Successfully generated: " ++ outputFile] }
      else
        { success := false, openedOutput := true,
          messages := msgs ++ ["Error writing output file"] }

/-- Translation of `AdvancedCodebaseParser.parse_and_output`: identical
control flow to the basic version, with the enhanced analysis message. -/
def advanced_parse_and_output (cfg : ScanConfig) (root : List String) (outputFile : String)
    (w : World) : RunResult :=
  let msgs := ["Parsing codebase in: " ++ pathStr root, "Output file: " ++ outputFile]
  if !w.rootExists then
    { success := false, openedOutput := false,
      messages := msgs ++ ["Error: Directory " ++ pathStr root ++ " does not exist"] }
  else
    let msgs := msgs ++ ["Scanning directory structure..."]
    let st := scan_directory cfg root w.entries
    if st.isEmpty then
      { success := false, openedOutput := false,
        messages := msgs ++ ["No code files found in the specified directory"] }
    else
      let stats := get_project_stats w.rd st
      let msgs := msgs ++
        ["Found " ++ natStr stats.total_files ++ " code files in " ++
           natStr stats.total_directories ++ " directories",
         "Analyzing code and generating output..."]
      if w.writeOk then
        { success := true, openedOutput := true,
          messages := msgs ++ ["Successfully generated: " ++ outputFile] }
      else
        { success := false, openedOutput := true,
          messages := msgs ++ ["Error writing output file"] }

/-- The argparse result consumed by `main` (the non-enhanced CLI path). -/
structure CliArgs where
  path : String
  output : String
  preview : Bool
  extensions : Option String
deriving Repr

/-- Normalisation applied to each entry of `--extensions`: strip, ensure a
leading dot, lower-case. -/
def normalizeExt (ext : String) : String :=
  let e := pyStripStr ext
  let e := if e.startsWith "." then e else "." ++ e
  strToLower e

/-- The `--extensions` merge in `main` (a falsy, i.e. empty, argument is
skipped like `None`). -/
def mergeExtensions (cfg : ScanConfig) (extsArg : Option String) : ScanConfig :=
  match extsArg with
  | none => cfg
  | some s =>
    if s = "" then cfg
    else { cfg with code_extensions := cfg.code_extensions ++ (s.splitOn ",").map normalizeExt }

/-- Translation of `main()`: returns the process exit status of the
non-enhanced CLI path (`resolve` models `Path(...).resolve()`). -/
def run_main (args : CliArgs) (w : World) (resolve : String → List String) : Nat :=
  let cfg := mergeExtensions defaultConfig args.extensions
  let root := resolve args.path
  if args.preview then 0
  else if (parse_and_output cfg root args.output w).success then 0 else 1

/-- Python's `list.remove` (first occurrence). -/
def removeFirst : List String → String → List String
  | [], _ => []
  | x :: xs, s => if x = s then xs else x :: removeFirst xs s

/-- Translation of the `__main__` block: help exits 0; the `--enhanced`
branch runs the advanced parser, ignores its returned success flag, and
falls off the end of the script (exit status 0); otherwise `main()` runs
(`args` stands for argparse's parse of `argv`). -/
def run_script (argv : List String) (args : CliArgs) (w : World)
    (resolve : String → List String) : Nat :=
  if 1 < argv.length ∧ ["--help", "-h", "help"].contains (argv.getD 1 "") then 0
  else if argv.contains "--enhanced" then
    let argv2 := removeFirst argv "--enhanced"
    let root := resolve (if 1 < argv2.length then argv2.getD 1 "" else ".")
    let _ := advanced_parse_and_output defaultConfig root "code.txt" w
    0
  else run_main args w resolve

/-- Regular expressions over the constructs the analyzer's pattern tables
use: literal characters, the classes `\s`, `\w`, `[A-Z]`, the dot, and
sequencing / alternation / Kleene star (plus a void regex for derivatives). -/
inductive Rx where
  | void : Rx
  | eps : Rx
  | chr : Char → Rx
  | anyNoNl : Rx
  | spaceCls : Rx
  | wordCls : Rx
  | upperCls : Rx
  | seq : Rx → Rx → Rx
  | alt : Rx → Rx → Rx
  | star : Rx → Rx
deriving DecidableEq, Repr

/-- Python's `\w` (ASCII portion relevant to the source patterns). -/
def isWordChar (c : Char) : Bool := c.isAlphanum || c = '_'

/-- The character class `[A-Z]`. -/
def isUpperAZ (c : Char) : Bool := 'A' ≤ c && c ≤ 'Z'

/-- Whether a regex accepts the empty string. -/
def Rx.nullable : Rx → Bool
  | .void => false
  | .eps => true
  | .chr _ => false
  | .anyNoNl => false
  | .spaceCls => false
  | .wordCls => false
  | .upperCls => false
  | .seq a b => a.nullable && b.nullable
  | .alt a b => a.nullable || b.nullable
  | .star _ => true

/-- Brzozowski derivative of a regex by one character. -/
def Rx.deriv : Rx → Char → Rx
  | .void, _ => .void
  | .eps, _ => .void
  | .chr c0, c => if c0 = c then .eps else .void
  | .anyNoNl, c => if c ≠ '\n' then .eps else .void
  | .spaceCls, c => if pyIsSpace c then .eps else .void
  | .wordCls, c => if isWordChar c then .eps else .void
  | .upperCls, c => if isUpperAZ c then .eps else .void
  | .seq a b, c =>
    if a.nullable then .alt (.seq (a.deriv c) b) (b.deriv c) else .seq (a.deriv c) b
  | .alt a b, c => .alt (a.deriv c) (b.deriv c)
  | .star a, c => .seq (a.deriv c) (.star a)

/-- Python's `re.match` semantics: does some prefix of the character list
match the regex (anchored at the start of the line)? -/
def matchPre (r : Rx) : List Char → Bool
  | [] => r.nullable
  | c :: cs => r.nullable || matchPre (r.deriv c) cs

/-- Sequencing of a pattern list. -/
def rseq (l : List Rx) : Rx := l.foldr .seq .eps

/-- Literal string regex. -/
def rlit (s : String) : Rx := rseq (s.data.map .chr)

/-- One-or-more repetition (`+`). -/
def rplus (r : Rx) : Rx := .seq r (.star r)

/-- Optional group (`(...)?`). -/
def ropt (r : Rx) : Rx := .alt r .eps

/-- The fragment `\s*`. -/
def wsStar : Rx := .star .spaceCls

/-- The fragment `\s+`. -/
def wsPlus : Rx := rplus .spaceCls

/-- The fragment `\w+`. -/
def wordPlus : Rx := rplus .wordCls

/-- The fragment `.*`. -/
def dotStar : Rx := .star .anyNoNl

/-- The apostrophe character (for the `'''` Python comment pattern). -/
def quoteChr : Char := Char.ofNat 39

/-- The shared `//` / `/*` / `*` comment patterns of the C-family entries. -/
def cFamilyComments : List Rx :=
  [rseq [wsStar, .chr '/', .chr '/'],
   rseq [wsStar, .chr '/', .chr '*'],
   rseq [wsStar, .chr '*']]

/-- The `comment_patterns` table of `analyze_file_complexity` (each regex's
leading `^` is implicit because `re.match` anchors at the line start). -/
def comment_patterns (ext : String) : List Rx :=
  if ext = ".py" then
    [rseq [wsStar, .chr '#'],
     rseq [wsStar, .chr '"', .chr '"', .chr '"'],
     rseq [wsStar, .chr quoteChr, .chr quoteChr, .chr quoteChr]]
  else if ext = ".js" then cFamilyComments
  else if ext = ".ts" then cFamilyComments
  else if ext = ".java" then cFamilyComments
  else if ext = ".cpp" then cFamilyComments
  else if ext = ".c" then cFamilyComments
  else []

/-- The `function_patterns` table of `analyze_file_complexity`. -/
def function_patterns (ext : String) : List Rx :=
  if ext = ".py" then
    [rseq [wsStar, rlit "def", wsPlus, wordPlus],
     rseq [wsStar, rlit "async", wsPlus, rlit "def", wsPlus, wordPlus]]
  else if ext = ".js" then
    [rseq [wsStar, rlit "function", wsPlus, wordPlus],
     rseq [wsStar, rlit "const", wsPlus, wordPlus, wsStar, .chr '=', dotStar, .chr '=', .chr '>'],
     rseq [wsStar, wordPlus, wsStar, .chr ':', wsStar, rlit "function"]]
  else if ext = ".ts" then
    [rseq [wsStar, rlit "function", wsPlus, wordPlus],
     rseq [wsStar, rlit "const", wsPlus, wordPlus, wsStar, .chr '=', dotStar, .chr '=', .chr '>'],
     rseq [wsStar, wordPlus, wsStar, .chr '(', dotStar, .chr ')', wsStar, .chr ':',
           wsStar, wordPlus, wsStar, .chr '\x7b']]
  else if ext = ".java" then
    [rseq [wsStar, ropt (.alt (rlit "public") (.alt (rlit "private") (rlit "protected"))),
           wsStar, ropt (rlit "static"), wsStar, wordPlus, wsPlus, wordPlus, wsStar, .chr '(']]
  else if ext = ".cpp" then
    [rseq [wsStar, wordPlus, wsPlus, wordPlus, wsStar, .chr '('],
     rseq [wsStar, .alt (rlit "public") (.alt (rlit "private") (rlit "protected")),
           .chr ':', wsStar, wordPlus]]
  else if ext = ".c" then
    [rseq [wsStar, wordPlus, wsPlus, wordPlus, wsStar, .chr '(']]
  else []

/-- The `class_patterns` table of `analyze_file_complexity`. -/
def class_patterns (ext : String) : List Rx :=
  if ext = ".py" then
    [rseq [wsStar, rlit "class", wsPlus, wordPlus]]
  else if ext = ".js" then
    [rseq [wsStar, rlit "class", wsPlus, wordPlus],
     rseq [wsStar, rlit "function", wsPlus, .upperCls, wordPlus]]
  else if ext = ".ts" then
    [rseq [wsStar, rlit "class", wsPlus, wordPlus],
     rseq [wsStar, rlit "interface", wsPlus, wordPlus],
     rseq [wsStar, rlit "type", wsPlus, wordPlus]]
  else if ext = ".java" then
    [rseq [wsStar, ropt (.alt (rlit "public") (rlit "private")), wsStar,
           rlit "class", wsPlus, wordPlus],
     rseq [wsStar, rlit "interface", wsPlus, wordPlus]]
  else if ext = ".cpp" then
    [rseq [wsStar, rlit "class", wsPlus, wordPlus],
     rseq [wsStar, rlit "struct", wsPlus, wordPlus]]
  else if ext = ".c" then
    [rseq [wsStar, rlit "struct", wsPlus, wordPlus],
     rseq [wsStar, rlit "typedef", wsPlus, rlit "struct"]]
  else []

/-- The per-file metrics record of the enhanced analyzer. -/
structure FileStats where
  lines_total : Nat
  lines_code : Nat
  lines_comment : Nat
  lines_blank : Nat
  functions : Nat
  classes : Nat
deriving DecidableEq, Repr

/-- Blankness test of the analyzer loop: empty after `strip()`. -/
def lineIsBlank (line : List Char) : Bool := (pyStrip line).isEmpty

/-- Python's `any(regex.match(line) for regex in ...)`. -/
def matchesAny (rxs : List Rx) (line : List Char) : Bool :=
  rxs.any (fun r => matchPre r line)

/-- Body of the per-line loop in `analyze_file_complexity`: blank, else
comment, else code (code lines are additionally tested against the function
and class pattern sets, each match incrementing its counter). -/
def updateStats (ext : String) (s : FileStats) (line : List Char) : FileStats :=
  if lineIsBlank line then { s with lines_blank := s.lines_blank + 1 }
  else if matchesAny (comment_patterns ext) line then
    { s with lines_comment := s.lines_comment + 1 }
  else
    let s1 := { s with lines_code := s.lines_code + 1 }
    let s2 :=
      if matchesAny (function_patterns ext) line then
        { s1 with functions := s1.functions + 1 }
      else s1
    if matchesAny (class_patterns ext) line then
      { s2 with classes := s2.classes + 1 }
    else s2

/-- Translation of `AdvancedCodebaseParser.analyze_file_complexity`; takes
the file's content and its `Path.suffix`, and returns `none` for the empty
(falsy) content, where the source returns the empty stats dict. -/
def analyze_file_complexity (content : String) (suffix : String) : Option FileStats :=
  if content = "" then none
  else
    let ext := strToLower suffix
    let lines := pySplitlines content
    some (lines.foldl (updateStats ext)
      { lines_total := lines.length, lines_code := 0, lines_comment := 0,
        lines_blank := 0, functions := 0, classes := 0 })

/-- Well-formedness of one path component as `pathlib` produces them:
non-empty, without a separator, and not the `.` pseudo-component. -/
def wfComponent (c : String) : Bool :=
  !(c = "") && !c.data.contains '/' && !(c = ".")

/-- Dict lookup on the insertion-ordered language-count mapping. -/
def lookupNat (L : List (String × Nat)) (k : String) : Option Nat :=
  (L.find? (fun p => p.1 == k)).map Prod.snd

/-- Whether an ignore pattern begins with the `*` wildcard. -/
def startsWithStar (p : String) : Bool := p.data.headD ' ' = '*'

/-!
Theorems.  First, the invariant that the scan's fold maintains for every
group of the resulting mapping.
-/

theorem insertAppend_inv (P : String → Entry → Prop) (st : List (String × List Entry))
    (k0 : String) (e : Entry) (hst : ∀ p ∈ st, ∀ x ∈ p.2, P p.1 x) (he : P k0 e) :
    ∀ p ∈ insertAppend st k0 e, ∀ x ∈ p.2, P p.1 x := by
  induction st with
  | nil =>
    intro p hp x hx
    simp only [insertAppend, List.mem_singleton] at hp
    subst hp
    simp only [List.mem_singleton] at hx
    subst hx
    exact he
  | cons hd tl ih =>
    obtain ⟨k1, l1⟩ := hd
    intro p hp x hx
    simp only [insertAppend] at hp
    by_cases hk : k1 = k0
    · simp only [if_pos hk, List.mem_cons] at hp
      rcases hp with hp | hp
      · subst hp
        simp only [List.mem_append, List.mem_singleton] at hx
        rcases hx with hx | hx
        · exact hst (k1, l1) (by simp) x hx
        · subst hx
          simpa [hk] using he
      · exact hst p (List.mem_cons_of_mem _ hp) x hx
    · simp only [if_neg hk, List.mem_cons] at hp
      rcases hp with hp | hp
      · subst hp
        exact hst (k1, l1) (by simp) x hx
      · exact ih (fun q hq => hst q (List.mem_cons_of_mem _ hq)) p hp x hx

theorem scan_foldl_inv (cfg : ScanConfig) (root : List String)
    (entries : List Entry) (acc : List (String × List Entry))
    (hacc : ∀ p ∈ acc, ∀ x ∈ p.2,
      keepEntry cfg x = true ∧ p.1 = parentDirKey root x.path) :
    ∀ p ∈ List.foldl (scanStep cfg root) acc entries, ∀ x ∈ p.2,
      keepEntry cfg x = true ∧ p.1 = parentDirKey root x.path := by
  induction entries generalizing acc with
  | nil => simpa using hacc
  | cons e rest ih =>
    simp only [List.foldl_cons]
    apply ih
    unfold scanStep
    split
    · exact hacc
    · split
      · rename_i hig hkeep
        refine insertAppend_inv
          (fun k x => keepEntry cfg x = true ∧ k = parentDirKey root x.path)
          acc _ e hacc ⟨?_, rfl⟩
        unfold keepEntry
        simp [hig, hkeep]
      · exact hacc

/-- Every entry in any group of the scan result was retained by the filter
and is stored under the directory key computed from its path. -/
theorem scan_directory_inv (cfg : ScanConfig) (root : List String)
    (entries : List Entry) (k : String) (l : List Entry) (e : Entry)
    (hkl : (k, l) ∈ scan_directory cfg root entries) (he : e ∈ l) :
    keepEntry cfg e = true ∧ k = parentDirKey root e.path := by
  have := scan_foldl_inv cfg root entries [] (by simp) (k, l) hkl e he
  exact this

theorem strContains_iff (l : List String) (a : String) : l.contains a = true ↔ a ∈ l := by
  simp [List.contains, List.elem_iff]

theorem contains_star_of_startsWithStar (p : String) (h : startsWithStar p = true) :
    p.data.contains '*' = true := by
  unfold startsWithStar at h
  cases hd : p.data with
  | nil => rw [hd] at h; simp [List.headD] at h
  | cons c cs =>
    rw [hd] at h
    simp only [List.headD, decide_eq_true_eq] at h
    subst h
    simp [List.contains, List.elem_iff]

/-- Decomposition of a retained entry: it is a file, and each disjunct of
`should_ignore_path` rejected it. -/
theorem keepEntry_decomp (cfg : ScanConfig) (e : Entry) (hk : keepEntry cfg e = true) :
    e.isFile = true ∧
    (parentNames e.path).any (fun d => cfg.ignore_dirs.contains d) = false ∧
    cfg.ignore_files.contains (entryName e) = false ∧
    cfg.ignore_files.any (fun p =>
      p.data.contains '*' && strEndsWith (entryName e) (strDropOne p)) = false := by
  unfold keepEntry at hk
  simp only [Bool.and_eq_true, Bool.not_eq_true'] at hk
  obtain ⟨hsi, hFile, -⟩ := hk
  refine ⟨hFile, ?_⟩
  unfold should_ignore_path at hsi
  rw [hFile] at hsi
  simp only [Bool.not_true, Bool.false_and, if_false] at hsi
  by_cases hA : (parentNames e.path).any (fun d => cfg.ignore_dirs.contains d) = true
  · rw [if_pos hA] at hsi; cases hsi
  · have hA' := Bool.eq_false_iff.mpr (fun h => hA h)
    refine ⟨hA', ?_⟩
    rw [if_neg hA] at hsi
    simp only [if_true] at hsi
    by_cases hC : cfg.ignore_files.contains (entryName e) = true
    · rw [if_pos hC] at hsi; cases hsi
    · exact ⟨Bool.eq_false_iff.mpr (fun h => hC h), by rwa [if_neg hC] at hsi⟩

/-- C3: no file under an ignored-named directory, with an ignored exact
name, or matching the literal suffix of a `*`-prefixed pattern, appears in
any group of the scan result. -/
theorem c3_ignore_rules_respected
    (cfg : ScanConfig) (root : List String) (entries : List Entry)
    (k : String) (l : List Entry) (e : Entry)
    (hkl : (k, l) ∈ scan_directory cfg root entries) (he : e ∈ l) :
    (parentNames e.path).all (fun d => !cfg.ignore_dirs.contains d) = true ∧
    cfg.ignore_files.contains (entryName e) = false ∧
    cfg.ignore_files.all (fun p =>
      !(startsWithStar p && strEndsWith (entryName e) (strDropOne p))) = true := by
  obtain ⟨hk, -⟩ := scan_directory_inv cfg root entries k l e hkl he
  obtain ⟨-, hA, hC, hD⟩ := keepEntry_decomp cfg e hk
  refine ⟨?_, hC, ?_⟩
  · rw [List.all_eq_true]
    intro d hd
    have hne := List.any_eq_false.mp hA d hd
    simp only [Bool.not_eq_true']
    exact Bool.eq_false_iff.mpr hne
  · rw [List.all_eq_true]
    intro p hp
    have hps := List.any_eq_false.mp hD p hp
    cases hsw : startsWithStar p with
    | false => simp
    | true =>
      have hcs := contains_star_of_startsWithStar p hsw
      cases hew : strEndsWith (entryName e) (strDropOne p) with
      | false => simp [hew]
      | true =>
        exact absurd
          (show (p.data.contains '*' && strEndsWith (entryName e) (strDropOne p)) = true by
            rw [hcs, hew]; rfl)
          hps

theorem c3_witness :
    ((".", [(⟨["r", "a.py"], true⟩ : Entry)]) ∈
      scan_directory defaultConfig ["r"] [⟨["r", "a.py"], true⟩]) ∧
    ((⟨["r", "a.py"], true⟩ : Entry) ∈ [(⟨["r", "a.py"], true⟩ : Entry)]) ∧
    ((parentNames (["r", "a.py"] : List String)).all
        (fun d => !defaultConfig.ignore_dirs.contains d) = true ∧
      defaultConfig.ignore_files.contains (entryName ⟨["r", "a.py"], true⟩) = false ∧
      defaultConfig.ignore_files.all (fun p =>
        !(startsWithStar p &&
          strEndsWith (entryName ⟨["r", "a.py"], true⟩) (strDropOne p))) = true) :=
  ⟨by decide, by decide,
    c3_ignore_rules_respected defaultConfig ["r"] [⟨["r", "a.py"], true⟩]
      "." [⟨["r", "a.py"], true⟩] ⟨["r", "a.py"], true⟩ (by decide) (by decide)⟩

/-- Any entry strictly below `root` inherits every component of
`root.dropLast` among its `parentNames`, so an ignored directory name
anywhere above the scan root makes `should_ignore_path` fire. -/
theorem ignored_ancestor_ignores (cfg : ScanConfig) (d : String) (root : List String)
    (e : Entry) (hd1 : d ∈ root.dropLast) (hd2 : d ∈ cfg.ignore_dirs)
    (hpre : root <+: e.path) (hlen : root.length < e.path.length) :
    should_ignore_path cfg e = true := by
  obtain ⟨t, ht⟩ := hpre
  have htne : t ≠ [] := by
    intro h
    rw [h, List.append_nil] at ht
    rw [← ht] at hlen
    omega
  have hdl : e.path.dropLast = root ++ t.dropLast := by
    rw [← ht]
    rcases t with - | ⟨a, t2⟩
    · exact absurd rfl htne
    · simp [List.dropLast_append_cons]
  have hmem : d ∈ parentNames e.path := by
    unfold parentNames
    apply List.mem_append_left
    rw [hdl]
    exact List.mem_append_left _ (List.dropLast_subset root hd1)
  have hany : (parentNames e.path).any (fun x => cfg.ignore_dirs.contains x) = true :=
    List.any_eq_true.mpr ⟨d, hmem, (strContains_iff _ _).mpr hd2⟩
  simp [should_ignore_path, hany]
  exact Or.inl ⟨d, hmem, hd2⟩

theorem scan_foldl_ignored (cfg : ScanConfig) (root : List String) (entries : List Entry)
    (acc : List (String × List Entry))
    (h : ∀ e ∈ entries, should_ignore_path cfg e = true) :
    List.foldl (scanStep cfg root) acc entries = acc := by
  induction entries generalizing acc with
  | nil => simp
  | cons e rest ih =>
    simp only [List.foldl_cons]
    have hstep : scanStep cfg root acc e = acc := by
      unfold scanStep
      rw [if_pos (h e (by simp))]
    rw [hstep]
    exact ih _ (fun x hx => h x (List.mem_cons_of_mem _ hx))

/-- C10: when the resolved root lies beneath a directory whose name is in the
ignored-directory set, every enumerated entry is ignored, the scan result is
the empty mapping, and the run fails reporting that no code files were found. -/
theorem c10_ignored_ancestor_empties_scan
    (cfg : ScanConfig) (root : List String) (outputFile : String) (w : World) (d : String)
    (hd1 : d ∈ root.dropLast) (hd2 : d ∈ cfg.ignore_dirs)
    (hunder : ∀ e ∈ w.entries, root <+: e.path ∧ root.length < e.path.length)
    (hex : w.rootExists = true) :
    scan_directory cfg root w.entries = [] ∧
    (parse_and_output cfg root outputFile w).success = false ∧
    "No code files found in the specified directory" ∈
      (parse_and_output cfg root outputFile w).messages := by
  have hscan : scan_directory cfg root w.entries = [] := by
    unfold scan_directory
    exact scan_foldl_ignored cfg root w.entries []
      (fun e he =>
        ignored_ancestor_ignores cfg d root e hd1 hd2 (hunder e he).1 (hunder e he).2)
  refine ⟨hscan, ?_, ?_⟩ <;>
    simp [parse_and_output, hex, hscan]

theorem c10_witness :
    (("env" : String) ∈ (["home", "env", "proj"] : List String).dropLast) ∧
    (("env" : String) ∈ defaultConfig.ignore_dirs) ∧
    (∀ e ∈ [(⟨["home", "env", "proj", "a.py"], true⟩ : Entry)],
      (["home", "env", "proj"] : List String) <+: e.path ∧
      (["home", "env", "proj"] : List String).length < e.path.length) ∧
    (scan_directory defaultConfig ["home", "env", "proj"]
        [⟨["home", "env", "proj", "a.py"], true⟩] = [] ∧
      (parse_and_output defaultConfig ["home", "env", "proj"] "code.txt"
        { rootExists := true,
          entries := [⟨["home", "env", "proj", "a.py"], true⟩],
          rd := fun _ => .ok "",
          writeOk := true }).success = false ∧
      "No code files found in the specified directory" ∈
        (parse_and_output defaultConfig ["home", "env", "proj"] "code.txt"
          { rootExists := true,
            entries := [⟨["home", "env", "proj", "a.py"], true⟩],
            rd := fun _ => .ok "",
            writeOk := true }).messages) :=
  ⟨by decide, by decide, by decide,
    c10_ignored_ancestor_empties_scan defaultConfig ["home", "env", "proj"] "code.txt"
      { rootExists := true,
        entries := [⟨["home", "env", "proj", "a.py"], true⟩],
        rd := fun _ => .ok "",
        writeOk := true }
      "env" (by decide) (by decide) (by decide) rfl⟩

theorem charListLe_refl (l : List Char) : charListLe l l = true := by
  induction l with
  | nil => rfl
  | cons a as ih => simpa [charListLe] using ih

theorem charListLe_total (a b : List Char) :
    charListLe a b = true ∨ charListLe b a = true := by
  induction a generalizing b with
  | nil => exact Or.inl rfl
  | cons x xs ih =>
    cases b with
    | nil => exact Or.inr rfl
    | cons y ys =>
      by_cases hxy : x = y
      · subst hxy
        rw [charListLe, if_pos rfl, charListLe, if_pos rfl]
        exact ih ys
      · rcases lt_trichotomy x y with h | h | h
        · exact Or.inl (by rw [charListLe, if_neg hxy]; exact decide_eq_true h)
        · exact absurd h hxy
        · exact Or.inr (by rw [charListLe, if_neg (fun hh => hxy hh.symm)]; exact decide_eq_true h)

theorem charListLe_antisymm (a b : List Char)
    (h1 : charListLe a b = true) (h2 : charListLe b a = true) : a = b := by
  induction a generalizing b with
  | nil =>
    cases b with
    | nil => rfl
    | cons y ys => rw [charListLe] at h2; cases h2
  | cons x xs ih =>
    cases b with
    | nil => rw [charListLe] at h1; cases h1
    | cons y ys =>
      by_cases hxy : x = y
      · subst hxy
        rw [charListLe, if_pos rfl] at h1 h2
        rw [ih ys h1 h2]
      · rw [charListLe, if_neg hxy] at h1
        rw [charListLe, if_neg (fun hh => hxy hh.symm)] at h2
        exact absurd (of_decide_eq_true h2) (lt_asymm (of_decide_eq_true h1))

theorem charListLe_trans (a b c : List Char)
    (h1 : charListLe a b = true) (h2 : charListLe b c = true) : charListLe a c = true := by
  induction a generalizing b c with
  | nil => rfl
  | cons x xs ih =>
    cases b with
    | nil => rw [charListLe] at h1; cases h1
    | cons y ys =>
      cases c with
      | nil => rw [charListLe] at h2; cases h2
      | cons z zs =>
        by_cases hxy : x = y
        · subst hxy
          rw [charListLe, if_pos rfl] at h1
          by_cases hyz : x = z
          · subst hyz
            rw [charListLe, if_pos rfl] at h2 ⊢
            exact ih ys zs h1 h2
          · rw [charListLe, if_neg hyz] at h2 ⊢
            exact h2
        · rw [charListLe, if_neg hxy] at h1
          have hxy' : x < y := of_decide_eq_true h1
          by_cases hyz : y = z
          · subst hyz
            rw [charListLe, if_neg hxy]
            exact decide_eq_true hxy'
          · rw [charListLe, if_neg hyz] at h2
            have hyz' : y < z := of_decide_eq_true h2
            have hxz : x < z := lt_trans hxy' hyz'
            rw [charListLe, if_neg (ne_of_lt hxz)]
            exact decide_eq_true hxz

theorem strLeB_refl (a : String) : strLeB a a = true := charListLe_refl a.data

theorem strLeB_total (a b : String) : strLeB a b = true ∨ strLeB b a = true :=
  charListLe_total a.data b.data

theorem strLeB_antisymm (a b : String) (h1 : strLeB a b = true) (h2 : strLeB b a = true) :
    a = b := by
  cases a; cases b
  exact congrArg String.mk (charListLe_antisymm _ _ h1 h2)

theorem strLeB_trans (a b c : String) (h1 : strLeB a b = true) (h2 : strLeB b c = true) :
    strLeB a c = true :=
  charListLe_trans a.data b.data c.data h1 h2

/-- C1 counterexample: scanning a file directly under the root groups it
under the key `"."` (the `'root'` sentinel the claim names never occurs,
because `PurePath('.').name` is `""`, not `"."`), and the key of the
root-level files is not listed first once a directory such as `"-x"`
(lexicographically below `"."`) is present. -/
theorem c1_counterexample :
    (scan_directory defaultConfig ["r"] [⟨["r", "a.py"], true⟩]).map Prod.fst = ["."] ∧
    ("." : String) ≠ "root" ∧
    sortedDirs (scan_directory defaultConfig ["r"]
      [⟨["r", "-x"], false⟩, ⟨["r", "-x", "b.py"], true⟩, ⟨["r", "a.py"], true⟩]) =
      ["-x", "."] := by
  refine ⟨by decide, by decide, ?_⟩
  decide

/-- C1 as amended: both formatters iterate directory keys through
`sortedDirs`, which is sorted in plain lexicographic string order and is a
permutation of the scan result's keys (no sentinel is forced first), the
files of each directory are iterated through `sortFilesByName`, sorted
alphabetically by file name, and every entry sits under the key
`parentDirKey` computed from its path (which is `"."`, not `"root"`, for
files directly under the root). -/
theorem c1_sorted_iteration
    (cfg : ScanConfig) (root : List String) (entries : List Entry)
    (k : String) (l : List Entry) (e : Entry)
    (hkl : (k, l) ∈ scan_directory cfg root entries) (he : e ∈ l) :
    (sortedDirs (scan_directory cfg root entries)).Sorted (fun a b => strLeB a b = true) ∧
    List.Perm (sortedDirs (scan_directory cfg root entries))
      ((scan_directory cfg root entries).map Prod.fst) ∧
    (sortFilesByName l).Sorted (fun a b => strLeB (entryName a) (entryName b) = true) ∧
    List.Perm (sortFilesByName l) l ∧
    k = parentDirKey root e.path := by
  haveI : IsTotal String (fun a b => strLeB a b = true) := ⟨strLeB_total⟩
  haveI : IsTrans String (fun a b => strLeB a b = true) := ⟨strLeB_trans⟩
  haveI : IsTotal Entry (fun a b => strLeB (entryName a) (entryName b) = true) :=
    ⟨fun a b => strLeB_total (entryName a) (entryName b)⟩
  haveI : IsTrans Entry (fun a b => strLeB (entryName a) (entryName b) = true) :=
    ⟨fun a b c => strLeB_trans (entryName a) (entryName b) (entryName c)⟩
  refine ⟨List.sorted_insertionSort _ _, List.perm_insertionSort _ _,
    List.sorted_insertionSort _ _, List.perm_insertionSort _ _, ?_⟩
  exact (scan_directory_inv cfg root entries k l e hkl he).2

theorem c1_witness :
    ((".", [(⟨["r", "a.py"], true⟩ : Entry)]) ∈
      scan_directory defaultConfig ["r"] [⟨["r", "a.py"], true⟩]) ∧
    ((⟨["r", "a.py"], true⟩ : Entry) ∈ [(⟨["r", "a.py"], true⟩ : Entry)]) ∧
    ((sortedDirs (scan_directory defaultConfig ["r"]
        [⟨["r", "a.py"], true⟩])).Sorted (fun a b => strLeB a b = true) ∧
      List.Perm (sortedDirs (scan_directory defaultConfig ["r"] [⟨["r", "a.py"], true⟩]))
        ((scan_directory defaultConfig ["r"] [⟨["r", "a.py"], true⟩]).map Prod.fst) ∧
      (sortFilesByName [(⟨["r", "a.py"], true⟩ : Entry)]).Sorted
        (fun a b => strLeB (entryName a) (entryName b) = true) ∧
      List.Perm (sortFilesByName [(⟨["r", "a.py"], true⟩ : Entry)])
        [(⟨["r", "a.py"], true⟩ : Entry)] ∧
      "." = parentDirKey ["r"] ["r", "a.py"]) :=
  ⟨by decide, by decide,
    c1_sorted_iteration defaultConfig ["r"] [⟨["r", "a.py"], true⟩]
      "." [⟨["r", "a.py"], true⟩] ⟨["r", "a.py"], true⟩ (by decide) (by decide)⟩

/-- Characterisation of the analyzer's per-line fold: each counter ends as
its initial value plus the number of lines classified into that bucket (in
the priority order blank, then comment, then code; code lines additionally
feed the function and class counters). -/
theorem foldl_updateStats_counts (ext : String) (lines : List (List Char)) (s : FileStats) :
    lines.foldl (updateStats ext) s =
      { lines_total := s.lines_total,
        lines_blank := s.lines_blank + lines.countP (fun l => lineIsBlank l),
        lines_comment := s.lines_comment + lines.countP (fun l =>
          !lineIsBlank l && matchesAny (comment_patterns ext) l),
        lines_code := s.lines_code + lines.countP (fun l =>
          !lineIsBlank l && !matchesAny (comment_patterns ext) l),
        functions := s.functions + lines.countP (fun l =>
          (!lineIsBlank l && !matchesAny (comment_patterns ext) l) &&
            matchesAny (function_patterns ext) l),
        classes := s.classes + lines.countP (fun l =>
          (!lineIsBlank l && !matchesAny (comment_patterns ext) l) &&
            matchesAny (class_patterns ext) l) } := by
  induction lines generalizing s with
  | nil => simp
  | cons line rest ih =>
    rw [List.foldl_cons, ih]
    simp only [List.countP_cons]
    unfold updateStats
    by_cases hb : lineIsBlank line = true
    · rw [if_pos hb]
      simp [FileStats.mk.injEq, hb]
      try omega
    · rw [if_neg hb]
      have hb' : lineIsBlank line = false := Bool.eq_false_iff.mpr hb
      by_cases hc : matchesAny (comment_patterns ext) line = true
      · rw [if_pos hc]
        simp [FileStats.mk.injEq, hb', hc]
        try omega
      · rw [if_neg hc]
        have hc' : matchesAny (comment_patterns ext) line = false := Bool.eq_false_iff.mpr hc
        by_cases hf : matchesAny (function_patterns ext) line = true
        · by_cases hk : matchesAny (class_patterns ext) line = true
          · simp [FileStats.mk.injEq, hb', hc', hf, hk]
            try omega
          · have hk' : matchesAny (class_patterns ext) line = false := Bool.eq_false_iff.mpr hk
            simp [FileStats.mk.injEq, hb', hc', hf, hk']
            try omega
        · have hf' : matchesAny (function_patterns ext) line = false := Bool.eq_false_iff.mpr hf
          by_cases hk : matchesAny (class_patterns ext) line = true
          · simp [FileStats.mk.injEq, hb', hc', hf', hk]
            try omega
          · have hk' : matchesAny (class_patterns ext) line = false := Bool.eq_false_iff.mpr hk
            simp [FileStats.mk.injEq, hb', hc', hf', hk']
            try omega

/-- The three line buckets partition the line list. -/
theorem countP_line_partition (ext : String) (lines : List (List Char)) :
    lines.countP (fun l => !lineIsBlank l && !matchesAny (comment_patterns ext) l) +
    lines.countP (fun l => !lineIsBlank l && matchesAny (comment_patterns ext) l) +
    lines.countP (fun l => lineIsBlank l) = lines.length := by
  induction lines with
  | nil => rfl
  | cons a t ih =>
    simp only [List.countP_cons, List.length_cons]
    by_cases hb : lineIsBlank a = true
    · simp only [hb]
      simp
      omega
    · have hb' : lineIsBlank a = false := Bool.eq_false_iff.mpr hb
      by_cases hc : matchesAny (comment_patterns ext) a = true
      · simp only [hb', hc]
        simp
        omega
      · have hc' : matchesAny (comment_patterns ext) a = false := Bool.eq_false_iff.mpr hc
        simp only [hb', hc']
        simp
        omega

/-- C4: whenever the analyzer produces a stats record, the total line count
decomposes exactly into code, comment and blank lines (all counters are
natural numbers, hence non-negative). -/
theorem c4_lines_total_decomposition (content sfx : String) (stats : FileStats)
    (h : analyze_file_complexity content sfx = some stats) :
    stats.lines_total = stats.lines_code + stats.lines_comment + stats.lines_blank := by
  unfold analyze_file_complexity at h
  by_cases hc : content = ""
  · rw [if_pos hc] at h; cases h
  · rw [if_neg hc] at h
    simp only [Option.some.injEq] at h
    subst h
    rw [foldl_updateStats_counts]
    have := countP_line_partition (strToLower sfx) (pySplitlines content)
    simp only []
    omega

theorem c4_witness :
    analyze_file_complexity "# hi\n\ndef f():\n    return 1\nx = 2" ".py" =
      some { lines_total := 5, lines_code := 3, lines_comment := 1, lines_blank := 1,
             functions := 1, classes := 0 } ∧
    (5 : Nat) = 3 + 1 + 1 :=
  ⟨by decide,
    c4_lines_total_decomposition "# hi\n\ndef f():\n    return 1\nx = 2" ".py"
      { lines_total := 5, lines_code := 3, lines_comment := 1, lines_blank := 1,
        functions := 1, classes := 0 } (by decide)⟩

/-- C5: the analyzer classifies each split line in priority order (blank
when empty after stripping, else comment when some registered comment regex
matches at line start, else code), and each code line feeds the function and
class counters independently, so a line matching both pattern sets
increments both. -/
theorem c5_priority_classification (content sfx : String) (stats : FileStats)
    (h : analyze_file_complexity content sfx = some stats) :
    stats.lines_blank = (pySplitlines content).countP (fun l => lineIsBlank l) ∧
    stats.lines_comment = (pySplitlines content).countP (fun l =>
      !lineIsBlank l && matchesAny (comment_patterns (strToLower sfx)) l) ∧
    stats.lines_code = (pySplitlines content).countP (fun l =>
      !lineIsBlank l && !matchesAny (comment_patterns (strToLower sfx)) l) ∧
    stats.functions = (pySplitlines content).countP (fun l =>
      (!lineIsBlank l && !matchesAny (comment_patterns (strToLower sfx)) l) &&
        matchesAny (function_patterns (strToLower sfx)) l) ∧
    stats.classes = (pySplitlines content).countP (fun l =>
      (!lineIsBlank l && !matchesAny (comment_patterns (strToLower sfx)) l) &&
        matchesAny (class_patterns (strToLower sfx)) l) := by
  unfold analyze_file_complexity at h
  by_cases hc : content = ""
  · rw [if_pos hc] at h; cases h
  · rw [if_neg hc] at h
    simp only [Option.some.injEq] at h
    subst h
    rw [foldl_updateStats_counts]
    simp

theorem c5_witness :
    analyze_file_complexity "function Foo()" ".js" =
      some { lines_total := 1, lines_code := 1, lines_comment := 0, lines_blank := 0,
             functions := 1, classes := 1 } ∧
    ((1 : Nat) = (pySplitlines "function Foo()").countP (fun l =>
      (!lineIsBlank l && !matchesAny (comment_patterns (strToLower ".js")) l) &&
        matchesAny (function_patterns (strToLower ".js")) l) ∧
    (1 : Nat) = (pySplitlines "function Foo()").countP (fun l =>
      (!lineIsBlank l && !matchesAny (comment_patterns (strToLower ".js")) l) &&
        matchesAny (class_patterns (strToLower ".js")) l)) :=
  ⟨by decide,
    (c5_priority_classification "function Foo()" ".js"
      { lines_total := 1, lines_code := 1, lines_comment := 0, lines_blank := 0,
        functions := 1, classes := 1 } (by decide)).2.2.2⟩

/-- C6: for an extension with no registered comment, function or class
pattern sets, every non-blank line is classified as code and the comment,
function and class counters are all zero. -/
theorem c6_no_registered_patterns (content sfx : String) (stats : FileStats)
    (hcp : comment_patterns (strToLower sfx) = [])
    (hfp : function_patterns (strToLower sfx) = [])
    (hkp : class_patterns (strToLower sfx) = [])
    (h : analyze_file_complexity content sfx = some stats) :
    stats.lines_comment = 0 ∧ stats.functions = 0 ∧ stats.classes = 0 ∧
    stats.lines_code = (pySplitlines content).countP (fun l => !lineIsBlank l) := by
  unfold analyze_file_complexity at h
  by_cases hc : content = ""
  · rw [if_pos hc] at h; cases h
  · rw [if_neg hc] at h
    simp only [Option.some.injEq] at h
    subst h
    rw [foldl_updateStats_counts]
    simp [hcp, hfp, hkp, matchesAny]

theorem c6_witness :
    comment_patterns (strToLower ".rs") = [] ∧
    function_patterns (strToLower ".rs") = [] ∧
    class_patterns (strToLower ".rs") = [] ∧
    analyze_file_complexity "let x = 1;\n\nlet y = 2;" ".rs" =
      some { lines_total := 3, lines_code := 2, lines_comment := 0, lines_blank := 1,
             functions := 0, classes := 0 } ∧
    ((0 : Nat) = 0 ∧ (0 : Nat) = 0 ∧ (0 : Nat) = 0 ∧
      (2 : Nat) = (pySplitlines "let x = 1;\n\nlet y = 2;").countP (fun l => !lineIsBlank l)) :=
  ⟨by decide, by decide, by decide, by decide,
    c6_no_registered_patterns "let x = 1;\n\nlet y = 2;" ".rs"
      { lines_total := 3, lines_code := 2, lines_comment := 0, lines_blank := 1,
        functions := 0, classes := 0 } (by decide) (by decide) (by decide) (by decide)⟩

/-- C2: evaluated at the failing input `--enhanced /nonexistent`, the
`__main__` dispatch discards the advanced parser's returned failure (the run
does fail: `success = false`) and falls off the end of the script, so the
process exit status is 0 where the claim requires 1. -/
theorem c2_enhanced_mode_exit_zero :
    (advanced_parse_and_output defaultConfig ["nonexistent"] "code.txt"
      { rootExists := false, entries := [], rd := fun _ => .ok "", writeOk := true }).success
        = false ∧
    run_script ["codebase_parser.py", "--enhanced", "/nonexistent"]
      { path := "/nonexistent", output := "code.txt", preview := false, extensions := none }
      { rootExists := false, entries := [], rd := fun _ => .ok "", writeOk := true }
      (fun _ => ["nonexistent"]) = 0 ∧
    (0 : Nat) ≠ 1 :=
  ⟨by decide, by decide, by decide⟩

/-- C7: with a non-existent root, `parse_and_output` reports the error and
fails without ever opening the output file (in both basic and enhanced
variants), and the standard CLI path exits 1 — but the `--enhanced` dispatch
still exits 0 despite the failure, contradicting the claim's
exit-status part. -/
theorem c7_root_missing_no_output :
    (parse_and_output defaultConfig ["nonexistent"] "code.txt"
      { rootExists := false, entries := [], rd := fun _ => .ok "", writeOk := true }).success
        = false ∧
    (parse_and_output defaultConfig ["nonexistent"] "code.txt"
      { rootExists := false, entries := [], rd := fun _ => .ok "", writeOk := true }).openedOutput
        = false ∧
    "Error: Directory /nonexistent does not exist" ∈
      (parse_and_output defaultConfig ["nonexistent"] "code.txt"
        { rootExists := false, entries := [], rd := fun _ => .ok "", writeOk := true }).messages ∧
    (advanced_parse_and_output defaultConfig ["nonexistent"] "code.txt"
      { rootExists := false, entries := [], rd := fun _ => .ok "", writeOk := true }).openedOutput
        = false ∧
    run_main { path := "/nonexistent", output := "code.txt", preview := false, extensions := none }
      { rootExists := false, entries := [], rd := fun _ => .ok "", writeOk := true }
      (fun _ => ["nonexistent"]) = 1 ∧
    run_script ["codebase_parser.py", "--enhanced", "/nonexistent"]
      { path := "/nonexistent", output := "code.txt", preview := false, extensions := none }
      { rootExists := false, entries := [], rd := fun _ => .ok "", writeOk := true }
      (fun _ => ["nonexistent"]) = 0 :=
  ⟨by decide, by decide, by decide, by decide, by decide, by decide⟩

theorem errorPlaceholder_ne_empty (err : String) : ("Error reading file: " ++ err) ≠ "" := by
  intro h
  have hd : ("Error reading file: " ++ err).data = ("" : String).data := congrArg String.data h
  rw [String.data_append] at hd
  simp at hd

/-- C9: the per-file section decides readability by string truthiness, so an
empty decoded content renders the unreadable-file placeholder, while a
non-empty read-error placeholder string is rendered as if it were content. -/
theorem c9_content_truthiness (rd : List String → ReadOutcome) (root : List String)
    (directory : String) (e1 e2 : Entry) (err : String)
    (h1 : rd e1.path = .ok "") (h2 : rd e2.path = .latinErr err) :
    (fileSection rd root directory e1).getD 3 "" = "// Unable to read file content" ∧
    (fileSection rd root directory e2).getD 3 "" = "Error reading file: " ++ err := by
  constructor
  · simp [fileSection, read_file_content, h1]
  · simp [fileSection, read_file_content, h2, errorPlaceholder_ne_empty err]

theorem c9_witness :
    ((fun p => if p = ["r", "a.py"] then ReadOutcome.ok "" else ReadOutcome.latinErr "boom")
      (["r", "a.py"] : List String) = ReadOutcome.ok "") ∧
    ((fun p => if p = ["r", "a.py"] then ReadOutcome.ok "" else ReadOutcome.latinErr "boom")
      (["r", "b.py"] : List String) = ReadOutcome.latinErr "boom") ∧
    ((fileSection
        (fun p => if p = ["r", "a.py"] then ReadOutcome.ok "" else ReadOutcome.latinErr "boom")
        ["r"] "." ⟨["r", "a.py"], true⟩).getD 3 "" = "// Unable to read file content" ∧
      (fileSection
        (fun p => if p = ["r", "a.py"] then ReadOutcome.ok "" else ReadOutcome.latinErr "boom")
        ["r"] "." ⟨["r", "b.py"], true⟩).getD 3 "" = "Error reading file: " ++ "boom") :=
  ⟨by decide, by decide,
    c9_content_truthiness
      (fun p => if p = ["r", "a.py"] then ReadOutcome.ok "" else ReadOutcome.latinErr "boom")
      ["r"] "." ⟨["r", "a.py"], true⟩ ⟨["r", "b.py"], true⟩ "boom" (by decide) (by decide)⟩

/-!
Determinism of the report (C8).  The scan is the grouping of the filtered
enumeration; grouping, sorting and the statistics are characterised below so
that two permuted enumerations yield identical reports.
-/

theorem scan_eq_groupfold (cfg : ScanConfig) (root : List String) (entries : List Entry) :
    ∀ acc, List.foldl (scanStep cfg root) acc entries =
      List.foldl (fun st e => insertAppend st (parentDirKey root e.path) e) acc
        (entries.filter (keepEntry cfg)) := by
  induction entries with
  | nil => intro acc; rfl
  | cons e rest ih =>
    intro acc
    rw [List.foldl_cons, List.filter_cons]
    by_cases hk : keepEntry cfg e = true
    · rw [if_pos hk, List.foldl_cons]
      have h1 : should_ignore_path cfg e = false := by
        unfold keepEntry at hk
        simp only [Bool.and_eq_true, Bool.not_eq_true'] at hk
        exact hk.1
      have h2 : (e.isFile && is_code_file cfg e) = true := by
        unfold keepEntry at hk
        simp only [Bool.and_eq_true] at hk
        simp [hk.2.1, hk.2.2]
      have hstep : scanStep cfg root acc e = insertAppend acc (parentDirKey root e.path) e := by
        unfold scanStep
        rw [if_neg (by simp [h1]), if_pos h2]
      rw [hstep]
      exact ih _
    · have hk' : keepEntry cfg e = false := Bool.eq_false_iff.mpr hk
      rw [if_neg hk]
      unfold keepEntry at hk'
      have hstep : scanStep cfg root acc e = acc := by
        unfold scanStep
        by_cases hig : should_ignore_path cfg e = true
        · rw [if_pos hig]
        · have hig' : should_ignore_path cfg e = false := Bool.eq_false_iff.mpr hig
          rw [hig'] at hk'
          simp only [Bool.not_false, Bool.true_and] at hk'
          rw [if_neg (by simp [hig']), if_neg (by simp [hk'])]
      rw [hstep]
      exact ih _

theorem lookupGroup_cons (k1 : String) (l1 : List Entry) (tl : List (String × List Entry))
    (k : String) :
    lookupGroup ((k1, l1) :: tl) k = if k1 = k then l1 else lookupGroup tl k := by
  unfold lookupGroup
  by_cases h : k1 = k
  · rw [List.find?_cons_of_pos _ (by simp [h]), if_pos h]
  · rw [List.find?_cons_of_neg _ (by simp [h]), if_neg h]

theorem keys_insertAppend (st : List (String × List Entry)) (k0 : String) (e : Entry) :
    (insertAppend st k0 e).map Prod.fst =
      if k0 ∈ st.map Prod.fst then st.map Prod.fst else st.map Prod.fst ++ [k0] := by
  induction st with
  | nil => simp [insertAppend]
  | cons hd tl ih =>
    obtain ⟨k1, l1⟩ := hd
    by_cases hk : k1 = k0
    · subst hk
      simp [insertAppend]
    · simp only [insertAppend, if_neg hk, List.map_cons, ih]
      by_cases hmem : k0 ∈ tl.map Prod.fst
      · simp [hmem, hk, Ne.symm hk]
      · simp [hmem, hk, Ne.symm hk]


theorem lookupGroup_insertAppend (st : List (String × List Entry)) (k0 : String) (e : Entry)
    (k : String) :
    lookupGroup (insertAppend st k0 e) k =
      if k = k0 then lookupGroup st k ++ [e] else lookupGroup st k := by
  induction st with
  | nil =>
    simp only [insertAppend]
    rw [lookupGroup_cons]
    by_cases h : k = k0
    · rw [if_pos h.symm, if_pos h]
      rfl
    · rw [if_neg (fun hh => h hh.symm), if_neg h]
  | cons hd tl ih =>
    obtain ⟨k1, l1⟩ := hd
    simp only [insertAppend]
    by_cases h1 : k1 = k0
    · rw [if_pos h1]
      subst h1
      rw [lookupGroup_cons]
      by_cases h2 : k = k1
      · rw [if_pos h2.symm, if_pos h2, lookupGroup_cons, if_pos h2.symm]
      · rw [if_neg (fun hh => h2 hh.symm), if_neg h2, lookupGroup_cons,
          if_neg (fun hh => h2 hh.symm)]
    · rw [if_neg h1, lookupGroup_cons]
      by_cases h2 : k = k1
      · have hne : k ≠ k0 := fun hh => h1 (h2.symm.trans hh)
        rw [if_pos h2.symm, if_neg hne, lookupGroup_cons, if_pos h2.symm]
      · rw [if_neg (fun hh => h2 hh.symm), ih]
        by_cases h3 : k = k0
        · rw [if_pos h3, if_pos h3, lookupGroup_cons, if_neg (fun hh => h2 hh.symm)]
        · rw [if_neg h3, if_neg h3, lookupGroup_cons, if_neg (fun hh => h2 hh.symm)]

theorem lookupGroup_groupfold (keyOf : Entry → String) (l : List Entry) :
    ∀ (acc : List (String × List Entry)) (k : String),
    lookupGroup (List.foldl (fun st e => insertAppend st (keyOf e) e) acc l) k =
      lookupGroup acc k ++ l.filter (fun e => keyOf e == k) := by
  induction l with
  | nil => intro acc k; simp
  | cons e t ih =>
    intro acc k
    rw [List.foldl_cons, ih, lookupGroup_insertAppend, List.filter_cons]
    by_cases h : k = keyOf e
    · rw [if_pos h, if_pos (by simp [h])]
      simp
    · rw [if_neg h, if_neg (by simp [beq_iff_eq]; exact fun hh => h hh.symm)]

theorem keys_insertAppend_mem (st : List (String × List Entry)) (k0 : String) (e : Entry)
    (k : String) :
    k ∈ (insertAppend st k0 e).map Prod.fst ↔ k ∈ st.map Prod.fst ∨ k = k0 := by
  rw [keys_insertAppend]
  by_cases h : k0 ∈ st.map Prod.fst
  · rw [if_pos h]
    constructor
    · exact Or.inl
    · rintro (hk | rfl)
      · exact hk
      · exact h
  · rw [if_neg h]
    simp

theorem keys_groupfold_mem (keyOf : Entry → String) (l : List Entry) :
    ∀ (acc : List (String × List Entry)) (k : String),
    k ∈ (List.foldl (fun st e => insertAppend st (keyOf e) e) acc l).map Prod.fst ↔
      k ∈ acc.map Prod.fst ∨ ∃ e ∈ l, keyOf e = k := by
  induction l with
  | nil => intro acc k; simp
  | cons e t ih =>
    intro acc k
    rw [List.foldl_cons, ih, keys_insertAppend_mem]
    constructor
    · rintro ((hk | rfl) | ⟨x, hx, rfl⟩)
      · exact Or.inl hk
      · exact Or.inr ⟨e, by simp⟩
      · exact Or.inr ⟨x, List.mem_cons_of_mem _ hx, rfl⟩
    · rintro (hk | ⟨x, hx, rfl⟩)
      · exact Or.inl (Or.inl hk)
      · rcases List.mem_cons.mp hx with rfl | hx2
        · exact Or.inl (Or.inr rfl)
        · exact Or.inr ⟨x, hx2, rfl⟩

theorem keys_groupfold_nodup (keyOf : Entry → String) (l : List Entry) :
    ∀ (acc : List (String × List Entry)), (acc.map Prod.fst).Nodup →
    ((List.foldl (fun st e => insertAppend st (keyOf e) e) acc l).map Prod.fst).Nodup := by
  induction l with
  | nil => intro acc h; simpa using h
  | cons e t ih =>
    intro acc h
    rw [List.foldl_cons]
    apply ih
    rw [keys_insertAppend]
    by_cases hmem : keyOf e ∈ acc.map Prod.fst
    · rwa [if_pos hmem]
    · rw [if_neg hmem]
      simp [List.nodup_append, h, hmem]

theorem join_insertAppend_perm (st : List (String × List Entry)) (k0 : String) (e : Entry) :
    List.Perm ((insertAppend st k0 e).flatMap Prod.snd) (st.flatMap Prod.snd ++ [e]) := by
  induction st with
  | nil => simp [insertAppend]
  | cons hd tl ih =>
    obtain ⟨k1, l1⟩ := hd
    simp only [insertAppend]
    by_cases h1 : k1 = k0
    · rw [if_pos h1]
      simp only [List.flatMap_cons]
      rw [List.append_assoc, List.append_assoc]
      exact List.Perm.append_left l1 (@List.perm_append_comm Entry [e] (tl.flatMap Prod.snd))
    · rw [if_neg h1]
      simp only [List.flatMap_cons]
      rw [List.append_assoc]
      exact List.Perm.append_left l1 ih

theorem join_groupfold_perm (keyOf : Entry → String) (l : List Entry) :
    ∀ (acc : List (String × List Entry)),
    List.Perm ((List.foldl (fun st e => insertAppend st (keyOf e) e) acc l).flatMap Prod.snd)
      (acc.flatMap Prod.snd ++ l) := by
  induction l with
  | nil => intro acc; simp
  | cons e t ih =>
    intro acc
    rw [List.foldl_cons]
    refine (ih _).trans ?_
    have h1 := join_insertAppend_perm acc (keyOf e) e
    refine (List.Perm.append_right t h1).trans ?_
    rw [List.append_assoc]
    rfl

/-- Two sorted lists that are permutations of each other and whose key
images are duplicate-free are equal (local antisymmetry via key injectivity). -/
theorem sorted_nodupkey_eq {α : Type} (key : α → String) :
    ∀ (l1 l2 : List α), List.Perm l1 l2 →
      l1.Pairwise (fun a b => strLeB (key a) (key b) = true) →
      l2.Pairwise (fun a b => strLeB (key a) (key b) = true) →
      (l1.map key).Nodup → l1 = l2 := by
  intro l1
  induction l1 with
  | nil =>
    intro l2 hp _ _ _
    exact (hp.nil_eq).symm ▸ rfl
  | cons a t1 ih =>
    intro l2 hp hs1 hs2 hnd
    cases l2 with
    | nil => exact absurd hp.symm.nil_eq (by simp)
    | cons b t2 =>
      by_cases hab : a = b
      · subst hab
        have ht : List.Perm t1 t2 := hp.cons_inv
        rw [ih t2 ht (List.Pairwise.of_cons hs1) (List.Pairwise.of_cons hs2)
          (by simpa using hnd.of_cons)]
      · have hbmem : b ∈ t1 := by
          have : b ∈ a :: t1 := hp.mem_iff.mpr (by simp)
          rcases List.mem_cons.mp this with h | h
          · exact absurd h.symm hab
          · exact h
        have hamem : a ∈ t2 := by
          have : a ∈ b :: t2 := hp.mem_iff.mp (by simp)
          rcases List.mem_cons.mp this with h | h
          · exact absurd h hab
          · exact h
        have h1 : strLeB (key a) (key b) = true :=
          (List.pairwise_cons.mp hs1).1 b hbmem
        have h2 : strLeB (key b) (key a) = true :=
          (List.pairwise_cons.mp hs2).1 a hamem
        have hkeq : key a = key b := strLeB_antisymm _ _ h1 h2
        exact absurd
          (List.inj_on_of_nodup_map hnd (by simp) (List.mem_cons_of_mem _ hbmem) hkeq)
          hab

theorem wfComponent_decomp (c : String) (h : wfComponent c = true) :
    c ≠ "" ∧ '/' ∉ c.data ∧ c ≠ "." := by
  unfold wfComponent at h
  simp only [Bool.and_eq_true, Bool.not_eq_true', decide_eq_false_iff_not] at h
  refine ⟨h.1.1, ?_, h.2⟩
  have h2 := h.1.2
  simp [List.contains, List.elem_iff] at h2
  exact h2

theorem append_slash_inj (a : List Char) :
    ∀ (b r s : List Char), '/' ∉ a → '/' ∉ b →
      a ++ '/' :: r = b ++ '/' :: s → a = b ∧ r = s := by
  induction a with
  | nil =>
    intro b r s _ hb h
    cases b with
    | nil => simpa using h
    | cons y ys =>
      simp only [List.nil_append, List.cons_append, List.cons.injEq] at h
      exfalso
      apply hb
      rw [← h.1]
      exact List.mem_cons_self _ _
  | cons x xs ih =>
    intro b r s ha hb h
    cases b with
    | nil =>
      simp only [List.cons_append, List.nil_append, List.cons.injEq] at h
      exfalso
      apply ha
      rw [h.1]
      exact List.mem_cons_self _ _
    | cons y ys =>
      simp only [List.cons_append, List.cons.injEq] at h
      obtain ⟨hxy, hrest⟩ := h
      have ha2 : '/' ∉ xs := fun hm => ha (List.mem_cons_of_mem _ hm)
      have hb2 : '/' ∉ ys := fun hm => hb (List.mem_cons_of_mem _ hm)
      obtain ⟨h1, h2⟩ := ih ys r s ha2 hb2 hrest
      exact ⟨by rw [hxy, h1], h2⟩

theorem joinSlash_cons_cons (x y : String) (ys : List String) :
    (joinSlash (x :: y :: ys)).data = x.data ++ '/' :: (joinSlash (y :: ys)).data := by
  show (x ++ "/" ++ joinSlash (y :: ys)).data = _
  rw [String.data_append, String.data_append]
  simp

theorem joinSlash_inj : ∀ (l1 l2 : List String),
    (∀ c ∈ l1, wfComponent c = true) → (∀ c ∈ l2, wfComponent c = true) →
    joinSlash l1 = joinSlash l2 → l1 = l2 := by
  intro l1
  induction l1 with
  | nil =>
    intro l2 _ h2 heq
    cases l2 with
    | nil => rfl
    | cons y ys =>
      exfalso
      have hd := congrArg String.data heq
      cases ys with
      | nil =>
        have hy : y = "" := String.ext (by simpa [joinSlash] using hd)
        exact (wfComponent_decomp y (h2 y (by simp))).1 hy
      | cons y2 ys2 =>
        rw [joinSlash_cons_cons] at hd
        cases hyd : y.data with
        | nil => exact (wfComponent_decomp y (h2 y (by simp))).1 (String.ext (by simp [hyd]))
        | cons c cs => rw [hyd] at hd; simp [joinSlash] at hd
  | cons x xs ih =>
    intro l2 h1 h2 heq
    cases l2 with
    | nil =>
      exfalso
      have hd := congrArg String.data heq
      cases xs with
      | nil =>
        have hx : x = "" := String.ext (by simpa [joinSlash] using hd)
        exact (wfComponent_decomp x (h1 x (by simp))).1 hx
      | cons x2 xs2 =>
        rw [joinSlash_cons_cons] at hd
        cases hxd : x.data with
        | nil => exact (wfComponent_decomp x (h1 x (by simp))).1 (String.ext (by simp [hxd]))
        | cons c cs => rw [hxd] at hd; simp [joinSlash] at hd
    | cons y ys =>
      cases xs with
      | nil =>
        cases ys with
        | nil =>
          have : x = y := by simpa [joinSlash] using heq
          rw [this]
        | cons y2 ys2 =>
          exfalso
          have hd := congrArg String.data heq
          rw [joinSlash_cons_cons] at hd
          have hx : '/' ∈ x.data := by
            simp only [joinSlash] at hd
            rw [hd]
            exact List.mem_append_right _ (List.mem_cons_self _ _)
          exact (wfComponent_decomp x (h1 x (by simp))).2.1 hx
      | cons x2 xs2 =>
        cases ys with
        | nil =>
          exfalso
          have hd := congrArg String.data heq
          rw [joinSlash_cons_cons] at hd
          have hy : '/' ∈ y.data := by
            simp only [joinSlash] at hd
            rw [← hd]
            exact List.mem_append_right _ (List.mem_cons_self _ _)
          exact (wfComponent_decomp y (h2 y (by simp))).2.1 hy
        | cons y2 ys2 =>
          have hd := congrArg String.data heq
          rw [joinSlash_cons_cons, joinSlash_cons_cons] at hd
          obtain ⟨hxy, hrest⟩ := append_slash_inj x.data y.data _ _
            ((wfComponent_decomp x (h1 x (by simp))).2.1)
            ((wfComponent_decomp y (h2 y (by simp))).2.1) hd
          have hxeq : x = y := String.ext hxy
          have hteq : xs2 :: List.nil = _ := rfl
          have htail : joinSlash (x2 :: xs2) = joinSlash (y2 :: ys2) := String.ext hrest
          have : x2 :: xs2 = y2 :: ys2 :=
            ih (y2 :: ys2) (fun c hc => h1 c (List.mem_cons_of_mem _ hc))
              (fun c hc => h2 c (List.mem_cons_of_mem _ hc)) htail
          rw [hxeq, this]

theorem purePathStr_inj (l1 l2 : List String)
    (h1 : ∀ c ∈ l1, wfComponent c = true) (h2 : ∀ c ∈ l2, wfComponent c = true)
    (heq : purePathStr l1 = purePathStr l2) : l1 = l2 := by
  unfold purePathStr at heq
  cases l1 with
  | nil =>
    cases l2 with
    | nil => rfl
    | cons y ys =>
      exfalso
      simp only [List.isEmpty_nil, List.isEmpty_cons, if_true, Bool.false_eq_true, if_false] at heq
      cases ys with
      | nil =>
        have : y = "." := by simpa [joinSlash] using heq.symm
        exact (wfComponent_decomp y (h2 y (by simp))).2.2 this
      | cons y2 ys2 =>
        have hd := congrArg String.data heq
        rw [joinSlash_cons_cons] at hd
        cases hyd : y.data with
        | nil => exact (wfComponent_decomp y (h2 y (by simp))).1 (String.ext (by simp [hyd]))
        | cons c cs =>
          rw [hyd] at hd
          simp at hd
  | cons x xs =>
    cases l2 with
    | nil =>
      exfalso
      simp only [List.isEmpty_nil, List.isEmpty_cons, if_true, Bool.false_eq_true, if_false] at heq
      cases xs with
      | nil =>
        have : x = "." := by simpa [joinSlash] using heq
        exact (wfComponent_decomp x (h1 x (by simp))).2.2 this
      | cons x2 xs2 =>
        have hd := congrArg String.data heq
        rw [joinSlash_cons_cons] at hd
        cases hxd : x.data with
        | nil => exact (wfComponent_decomp x (h1 x (by simp))).1 (String.ext (by simp [hxd]))
        | cons c cs =>
          rw [hxd] at hd
          simp at hd
    | cons y ys =>
      simp only [List.isEmpty_cons, Bool.false_eq_true, if_false] at heq
      exact joinSlash_inj (x :: xs) (y :: ys) h1 h2 heq

theorem getLastD_mem (l : List String) (d : String) (h : l ≠ []) : l.getLastD d ∈ l := by
  rcases List.eq_nil_or_concat l with rfl | ⟨t, a, rfl⟩
  · exact absurd rfl h
  · rw [List.concat_eq_append, List.getLastD_concat]
    exact List.mem_append_right _ (List.mem_cons_self _ _)

/-- Under well-formed components the `'root'` branch of `parentDirKey` is
dead: the parent's name is never the string `"."`. -/
theorem parentDirKey_wf (root p : List String) (hwf : ∀ c ∈ p, wfComponent c = true) :
    parentDirKey root p = purePathStr ((relParts root p).dropLast) := by
  have hcond : purePathName ((relParts root p).dropLast) ≠ "." := by
    unfold purePathName
    by_cases hnil : (relParts root p).dropLast = []
    · rw [hnil]
      decide
    · have hmem : ((relParts root p).dropLast).getLastD "" ∈ p := by
        have h1 := getLastD_mem _ "" hnil
        exact List.drop_subset _ p (List.dropLast_subset _ h1)
      exact (wfComponent_decomp _ (hwf _ hmem)).2.2
  unfold parentDirKey
  rw [if_pos hcond]

theorem relParts_of_under (root : List String) (e : Entry)
    (hpre : root <+: e.path) (hlen : root.length < e.path.length) :
    e.path = root ++ relParts root e.path ∧ relParts root e.path ≠ [] ∧
      entryName e = (relParts root e.path).getLastD "" := by
  obtain ⟨t, ht⟩ := hpre
  have htrel : relParts root e.path = t := by
    unfold relParts
    rw [← ht, List.drop_left]
  have htne : t ≠ [] := by
    intro h
    rw [h, List.append_nil] at ht
    rw [← ht] at hlen
    omega
  refine ⟨by rw [htrel, ht], by rw [htrel]; exact htne, ?_⟩
  unfold entryName
  rw [htrel, ← ht]
  rcases List.eq_nil_or_concat t with rfl | ⟨t2, a, hta⟩
  · exact absurd rfl htne
  · rw [hta, List.concat_eq_append, ← List.append_assoc, List.getLastD_concat,
      List.getLastD_concat]

/-- Within the retained entries, directory key plus file name determine the
entry (given each-entry-under-root and well-formed components). -/
theorem retained_key_name_inj (cfg : ScanConfig) (root : List String) (entries : List Entry)
    (hunder : ∀ e ∈ entries, root <+: e.path ∧ root.length < e.path.length)
    (hwf : ∀ e ∈ entries, ∀ c ∈ e.path, wfComponent c = true)
    (a b : Entry) (ha : a ∈ entries.filter (keepEntry cfg))
    (hb : b ∈ entries.filter (keepEntry cfg))
    (hkey : parentDirKey root a.path = parentDirKey root b.path)
    (hname : entryName a = entryName b) : a = b := by
  have ha1 : a ∈ entries := List.mem_of_mem_filter ha
  have hb1 : b ∈ entries := List.mem_of_mem_filter hb
  have hka : keepEntry cfg a = true := List.of_mem_filter ha
  have hkb : keepEntry cfg b = true := List.of_mem_filter hb
  obtain ⟨hpa, hna, hla⟩ := relParts_of_under root a ((hunder a ha1).1) ((hunder a ha1).2)
  obtain ⟨hpb, hnb, hlb⟩ := relParts_of_under root b ((hunder b hb1).1) ((hunder b hb1).2)
  have hwrel : ∀ c ∈ (relParts root a.path).dropLast, wfComponent c = true := by
    intro c hc
    exact hwf a ha1 c (List.drop_subset _ _ (List.dropLast_subset _ hc))
  have hwrel2 : ∀ c ∈ (relParts root b.path).dropLast, wfComponent c = true := by
    intro c hc
    exact hwf b hb1 c (List.drop_subset _ _ (List.dropLast_subset _ hc))
  rw [parentDirKey_wf root a.path (hwf a ha1), parentDirKey_wf root b.path (hwf b hb1)] at hkey
  have hparent : (relParts root a.path).dropLast = (relParts root b.path).dropLast :=
    purePathStr_inj _ _ hwrel hwrel2 hkey
  have hrel : relParts root a.path = relParts root b.path := by
    rcases List.eq_nil_or_concat (relParts root a.path) with h0 | ⟨t2, x, hx⟩
    · exact absurd h0 hna
    · rcases List.eq_nil_or_concat (relParts root b.path) with h0 | ⟨s2, y, hy⟩
      · exact absurd h0 hnb
      · rw [List.concat_eq_append] at hx hy
        rw [hx, hy]
        rw [hx, List.dropLast_concat] at hparent
        rw [hy, List.dropLast_concat] at hparent
        rw [hla, hx, List.getLastD_concat] at hname
        rw [hlb, hy, List.getLastD_concat] at hname
        rw [hparent, hname]
  have hpath : a.path = b.path := by
    rw [hpa, hpb, hrel]
  have hfa : a.isFile = true := by
    unfold keepEntry at hka
    simp only [Bool.and_eq_true] at hka
    exact hka.2.1
  have hfb : b.isFile = true := by
    unfold keepEntry at hkb
    simp only [Bool.and_eq_true] at hkb
    exact hkb.2.1
  cases a
  cases b
  simp only [Entry.mk.injEq]
  simp only [] at hpath hfa hfb
  exact ⟨hpath, by rw [hfa, hfb]⟩

theorem statsStep_foldl (rd : List String → ReadOutcome) (files : List Entry) :
    ∀ acc : ProjectStats, files.foldl (statsStep rd) acc =
      { total_files := acc.total_files,
        total_directories := acc.total_directories,
        total_lines := acc.total_lines + (files.map (fileLineCount rd)).sum,
        languages := files.foldl (fun L e =>
          bumpLang L (get_language_from_extension (pySuffix (entryName e)))) acc.languages } := by
  induction files with
  | nil => intro acc; simp
  | cons f t ih =>
    intro acc
    rw [List.foldl_cons, ih]
    unfold statsStep
    simp only [ProjectStats.mk.injEq, List.map_cons, List.sum_cons, List.foldl_cons]
    refine ⟨by trivial, by trivial, by omega, by trivial⟩

theorem stats_outer_foldl (rd : List String → ReadOutcome) (st : List (String × List Entry)) :
    ∀ acc : ProjectStats,
    st.foldl
      (fun acc kv =>
        kv.2.foldl (statsStep rd) { acc with total_files := acc.total_files + kv.2.length })
      acc =
      { total_files := acc.total_files + (st.flatMap Prod.snd).length,
        total_directories := acc.total_directories,
        total_lines := acc.total_lines + ((st.flatMap Prod.snd).map (fileLineCount rd)).sum,
        languages := (st.flatMap Prod.snd).foldl (fun L e =>
          bumpLang L (get_language_from_extension (pySuffix (entryName e)))) acc.languages } := by
  induction st with
  | nil => intro acc; simp
  | cons kv t ih =>
    intro acc
    rw [List.foldl_cons, statsStep_foldl, ih]
    simp only [ProjectStats.mk.injEq, List.flatMap_cons, List.length_append, List.map_append,
      List.sum_append, List.foldl_append]
    refine ⟨by omega, by trivial, by omega, by trivial⟩

theorem get_project_stats_char (rd : List String → ReadOutcome)
    (st : List (String × List Entry)) :
    get_project_stats rd st =
      { total_files := (st.flatMap Prod.snd).length,
        total_directories := st.length,
        total_lines := ((st.flatMap Prod.snd).map (fileLineCount rd)).sum,
        languages := (st.flatMap Prod.snd).foldl (fun L e =>
          bumpLang L (get_language_from_extension (pySuffix (entryName e)))) [] } := by
  unfold get_project_stats
  rw [stats_outer_foldl]
  simp

theorem lookupNat_cons (k1 : String) (v1 : Nat) (t : List (String × Nat)) (k : String) :
    lookupNat ((k1, v1) :: t) k = if k1 = k then some v1 else lookupNat t k := by
  unfold lookupNat
  by_cases h : k1 = k
  · rw [List.find?_cons_of_pos _ (by simp [h]), if_pos h]
    rfl
  · rw [List.find?_cons_of_neg _ (by simp [h]), if_neg h]

theorem lookupNat_bump (L : List (String × Nat)) (lang k : String) :
    lookupNat (bumpLang L lang) k =
      if k = lang then some ((lookupNat L k).getD 0 + 1) else lookupNat L k := by
  induction L with
  | nil =>
    simp only [bumpLang]
    rw [lookupNat_cons]
    by_cases h : k = lang
    · rw [if_pos h.symm, if_pos h]
      rfl
    · rw [if_neg (fun hh => h hh.symm), if_neg h]
  | cons hd t ih =>
    obtain ⟨k1, v1⟩ := hd
    simp only [bumpLang]
    by_cases h1 : k1 = lang
    · rw [if_pos h1]
      subst h1
      rw [lookupNat_cons]
      by_cases h2 : k = k1
      · rw [if_pos h2.symm, if_pos h2, lookupNat_cons, if_pos h2.symm]
        simp
      · have h2' : ¬ k1 = k := fun hh => h2 hh.symm
        rw [if_neg h2', if_neg h2, lookupNat_cons, if_neg h2']
    · rw [if_neg h1, lookupNat_cons]
      by_cases h2 : k = k1
      · have hne : k ≠ lang := fun hh => h1 (h2.symm.trans hh)
        rw [if_pos h2.symm, if_neg hne, lookupNat_cons, if_pos h2.symm]
      · have h2' : ¬ k1 = k := fun hh => h2 hh.symm
        rw [if_neg h2', ih]
        simp only [lookupNat_cons, if_neg h2']

theorem lookupNat_bumpfold (f : Entry → String) (l : List Entry) :
    ∀ (L0 : List (String × Nat)) (k : String),
    lookupNat (l.foldl (fun L e => bumpLang L (f e)) L0) k =
      if (l.map f).count k = 0 then lookupNat L0 k
      else some ((lookupNat L0 k).getD 0 + (l.map f).count k) := by
  induction l with
  | nil => intro L0 k; simp
  | cons e t ih =>
    intro L0 k
    rw [List.foldl_cons, ih (bumpLang L0 (f e)) k]
    simp only [lookupNat_bump]
    by_cases heq : k = f e
    · have hc : ((e :: t).map f).count k = (t.map f).count k + 1 := by
        simp [List.map_cons, List.count_cons, heq]
      rw [hc, if_pos heq]
      by_cases hct : (t.map f).count k = 0
      · rw [if_pos hct, if_neg (show ¬((t.map f).count k + 1 = 0) by omega), hct]
      · rw [if_neg hct, if_neg (show ¬((t.map f).count k + 1 = 0) by omega)]
        simp only [Option.getD_some, Option.some.injEq]
        omega
    · have hc : ((e :: t).map f).count k = (t.map f).count k := by
        simp [List.map_cons, List.count_cons, heq]
      rw [hc, if_neg heq]

theorem bump_keys (L : List (String × Nat)) (lang : String) :
    (bumpLang L lang).map Prod.fst =
      if lang ∈ L.map Prod.fst then L.map Prod.fst else L.map Prod.fst ++ [lang] := by
  induction L with
  | nil => simp [bumpLang]
  | cons hd t ih =>
    obtain ⟨k1, v1⟩ := hd
    by_cases hk : k1 = lang
    · subst hk
      simp [bumpLang]
    · simp only [bumpLang, if_neg hk, List.map_cons, ih]
      by_cases hmem : lang ∈ t.map Prod.fst
      · simp [hmem, hk, Ne.symm hk]
      · simp [hmem, hk, Ne.symm hk]

theorem bumpfold_keys_nodup (f : Entry → String) (l : List Entry) :
    ∀ (L0 : List (String × Nat)), (L0.map Prod.fst).Nodup →
    ((l.foldl (fun L e => bumpLang L (f e)) L0).map Prod.fst).Nodup := by
  induction l with
  | nil => intro L0 h; simpa using h
  | cons e t ih =>
    intro L0 h
    rw [List.foldl_cons]
    apply ih
    rw [bump_keys]
    by_cases hmem : f e ∈ L0.map Prod.fst
    · rwa [if_pos hmem]
    · rw [if_neg hmem]
      simp [List.nodup_append, h, hmem]

theorem mem_iff_lookupNat (L : List (String × Nat)) (hn : (L.map Prod.fst).Nodup)
    (k : String) (v : Nat) : (k, v) ∈ L ↔ lookupNat L k = some v := by
  induction L with
  | nil => simp [lookupNat]
  | cons hd t ih =>
    obtain ⟨k1, v1⟩ := hd
    rw [lookupNat_cons]
    simp only [List.map_cons, List.nodup_cons] at hn
    by_cases h : k1 = k
    · subst h
      rw [if_pos rfl]
      constructor
      · intro hm
        rcases List.mem_cons.mp hm with hh | hh
        · simp only [Prod.mk.injEq] at hh
          rw [hh.2]
        · exact absurd (List.mem_map_of_mem Prod.fst hh) hn.1
      · intro hh
        simp only [Option.some.injEq] at hh
        subst hh
        exact List.mem_cons_self _ _
    · rw [if_neg h]
      rw [← ih hn.2]
      constructor
      · intro hm
        rcases List.mem_cons.mp hm with hh | hh
        · simp only [Prod.mk.injEq] at hh
          exact absurd hh.1.symm h
        · exact hh
      · exact List.mem_cons_of_mem _

theorem pairLeB_total (a b : String × Nat) : pairLeB a b = true ∨ pairLeB b a = true := by
  unfold pairLeB
  by_cases h : a.1 = b.1
  · rw [if_pos h, if_pos h.symm]
    rcases Nat.le_total a.2 b.2 with hle | hle
    · exact Or.inl (decide_eq_true hle)
    · exact Or.inr (decide_eq_true hle)
  · rw [if_neg h, if_neg (fun hh => h hh.symm)]
    exact strLeB_total _ _

theorem pairLeB_trans (a b c : String × Nat) (h1 : pairLeB a b = true)
    (h2 : pairLeB b c = true) : pairLeB a c = true := by
  unfold pairLeB at h1 h2 ⊢
  by_cases hab : a.1 = b.1
  · rw [if_pos hab] at h1
    by_cases hbc : b.1 = c.1
    · rw [if_pos hbc] at h2
      rw [if_pos (hab.trans hbc)]
      exact decide_eq_true (le_trans (of_decide_eq_true h1) (of_decide_eq_true h2))
    · rw [if_neg hbc] at h2
      have hac : ¬ a.1 = c.1 := fun hh => hbc (hab.symm.trans hh)
      rw [if_neg hac, hab]
      exact h2
  · rw [if_neg hab] at h1
    by_cases hbc : b.1 = c.1
    · rw [if_pos hbc] at h2
      have hac : ¬ a.1 = c.1 := fun hh => hab (hh.trans hbc.symm)
      rw [if_neg hac, ← hbc]
      exact h1
    · rw [if_neg hbc] at h2
      have hac : ¬ a.1 = c.1 := by
        intro hh
        rw [← hh] at h2
        exact hab (strLeB_antisymm _ _ h1 h2)
      rw [if_neg hac]
      exact strLeB_trans _ _ _ h1 h2

theorem pairLeB_antisymm (a b : String × Nat) (h1 : pairLeB a b = true)
    (h2 : pairLeB b a = true) : a = b := by
  unfold pairLeB at h1 h2
  by_cases hab : a.1 = b.1
  · rw [if_pos hab] at h1
    rw [if_pos hab.symm] at h2
    have hv : a.2 = b.2 := le_antisymm (of_decide_eq_true h1) (of_decide_eq_true h2)
    obtain ⟨a1, a2⟩ := a
    obtain ⟨b1, b2⟩ := b
    simp only [] at hab hv
    rw [hab, hv]
  · rw [if_neg hab] at h1
    rw [if_neg (fun hh => hab hh.symm)] at h2
    exact absurd (strLeB_antisymm _ _ h1 h2) hab

theorem scan_directory_eq (cfg : ScanConfig) (root : List String) (entries : List Entry) :
    scan_directory cfg root entries =
      List.foldl (fun st e => insertAppend st (parentDirKey root e.path) e) []
        (entries.filter (keepEntry cfg)) :=
  scan_eq_groupfold cfg root entries []

theorem lookupGroup_scan (cfg : ScanConfig) (root : List String) (entries : List Entry)
    (k : String) :
    lookupGroup (scan_directory cfg root entries) k =
      (entries.filter (keepEntry cfg)).filter (fun e => parentDirKey root e.path == k) := by
  rw [scan_directory_eq, lookupGroup_groupfold]
  rfl

theorem keys_scan_nodup (cfg : ScanConfig) (root : List String) (entries : List Entry) :
    ((scan_directory cfg root entries).map Prod.fst).Nodup := by
  rw [scan_directory_eq]
  exact keys_groupfold_nodup _ _ [] (by simp)

theorem keys_scan_mem (cfg : ScanConfig) (root : List String) (entries : List Entry)
    (k : String) :
    k ∈ (scan_directory cfg root entries).map Prod.fst ↔
      ∃ e ∈ entries.filter (keepEntry cfg), parentDirKey root e.path = k := by
  rw [scan_directory_eq, keys_groupfold_mem]
  simp

theorem join_scan_perm (cfg : ScanConfig) (root : List String) (entries : List Entry) :
    List.Perm ((scan_directory cfg root entries).flatMap Prod.snd)
      (entries.filter (keepEntry cfg)) := by
  rw [scan_directory_eq]
  have h := join_groupfold_perm (fun e => parentDirKey root e.path)
    (entries.filter (keepEntry cfg)) []
  simpa using h

/-- C8: the written report is a deterministic function of the tree contents
and configuration — two enumerations of the same unchanged tree (any two
permutations of the same duplicate-free entry list, each entry strictly
under the root with well-formed components) produce byte-identical output. -/
theorem c8_deterministic_report
    (cfg : ScanConfig) (root : List String) (rd : List String → ReadOutcome)
    (entries1 entries2 : List Entry)
    (hperm : List.Perm entries1 entries2)
    (hnd : (entries1.map Entry.path).Nodup)
    (hunder : ∀ e ∈ entries1, root <+: e.path ∧ root.length < e.path.length)
    (hwf : ∀ e ∈ entries1, ∀ c ∈ e.path, wfComponent c = true) :
    writtenReport cfg root rd entries1 = writtenReport cfg root rd entries2 := by
  have hr : List.Perm (entries1.filter (keepEntry cfg)) (entries2.filter (keepEntry cfg)) :=
    hperm.filter _
  haveI i1 : IsTotal String (fun a b => strLeB a b = true) := ⟨strLeB_total⟩
  haveI i2 : IsTrans String (fun a b => strLeB a b = true) := ⟨strLeB_trans⟩
  haveI i3 : IsAntisymm String (fun a b => strLeB a b = true) := ⟨strLeB_antisymm⟩
  haveI i4 : IsTotal Entry (fun a b => strLeB (entryName a) (entryName b) = true) :=
    ⟨fun a b => strLeB_total _ _⟩
  haveI i5 : IsTrans Entry (fun a b => strLeB (entryName a) (entryName b) = true) :=
    ⟨fun a b c => strLeB_trans _ _ _⟩
  haveI i6 : IsTotal (String × Nat) (fun a b => pairLeB a b = true) := ⟨pairLeB_total⟩
  haveI i7 : IsTrans (String × Nat) (fun a b => pairLeB a b = true) := ⟨pairLeB_trans⟩
  haveI i8 : IsAntisymm (String × Nat) (fun a b => pairLeB a b = true) := ⟨pairLeB_antisymm⟩
  have hkeysperm : List.Perm ((scan_directory cfg root entries1).map Prod.fst)
      ((scan_directory cfg root entries2).map Prod.fst) := by
    refine (List.perm_ext_iff_of_nodup (keys_scan_nodup cfg root entries1)
      (keys_scan_nodup cfg root entries2)).mpr ?_
    intro k
    rw [keys_scan_mem, keys_scan_mem]
    constructor
    · rintro ⟨e, he, rfl⟩
      exact ⟨e, hr.mem_iff.mp he, rfl⟩
    · rintro ⟨e, he, rfl⟩
      exact ⟨e, hr.mem_iff.mpr he, rfl⟩
  have hdirs : sortedDirs (scan_directory cfg root entries1) =
      sortedDirs (scan_directory cfg root entries2) := by
    unfold sortedDirs
    exact List.eq_of_perm_of_sorted
      ((List.perm_insertionSort _ _).trans
        (hkeysperm.trans (List.perm_insertionSort _ _).symm))
      (List.sorted_insertionSort _ _) (List.sorted_insertionSort _ _)
  have hgperm : ∀ k, List.Perm (lookupGroup (scan_directory cfg root entries1) k)
      (lookupGroup (scan_directory cfg root entries2) k) := by
    intro k
    rw [lookupGroup_scan, lookupGroup_scan]
    exact hr.filter _
  have hgnodup : ∀ k, ((lookupGroup (scan_directory cfg root entries1) k).map entryName).Nodup := by
    intro k
    rw [lookupGroup_scan]
    apply List.Nodup.map_on
    · intro a ha b hb hname
      have hka : parentDirKey root a.path = k := by
        have := List.of_mem_filter ha
        simpa using this
      have hkb : parentDirKey root b.path = k := by
        have := List.of_mem_filter hb
        simpa using this
      exact retained_key_name_inj cfg root entries1 hunder hwf a b
        (List.mem_of_mem_filter ha) (List.mem_of_mem_filter hb)
        (hka.trans hkb.symm) hname
    · exact ((hnd.of_map).filter _).filter _
  have hgroups : ∀ k, sortFilesByName (lookupGroup (scan_directory cfg root entries1) k) =
      sortFilesByName (lookupGroup (scan_directory cfg root entries2) k) := by
    intro k
    unfold sortFilesByName
    refine sorted_nodupkey_eq entryName _ _
      ((List.perm_insertionSort _ _).trans
        ((hgperm k).trans (List.perm_insertionSort _ _).symm))
      (List.sorted_insertionSort _ _) (List.sorted_insertionSort _ _) ?_
    exact (((List.perm_insertionSort _ _).map entryName).nodup_iff).mpr (hgnodup k)
  have hglen : ∀ k, (lookupGroup (scan_directory cfg root entries1) k).length =
      (lookupGroup (scan_directory cfg root entries2) k).length :=
    fun k => (hgperm k).length_eq
  have hjoin : List.Perm ((scan_directory cfg root entries1).flatMap Prod.snd)
      ((scan_directory cfg root entries2).flatMap Prod.snd) :=
    (join_scan_perm cfg root entries1).trans (hr.trans (join_scan_perm cfg root entries2).symm)
  have htf : (get_project_stats rd (scan_directory cfg root entries1)).total_files =
      (get_project_stats rd (scan_directory cfg root entries2)).total_files := by
    rw [get_project_stats_char, get_project_stats_char]
    exact hjoin.length_eq
  have htd : (get_project_stats rd (scan_directory cfg root entries1)).total_directories =
      (get_project_stats rd (scan_directory cfg root entries2)).total_directories := by
    rw [get_project_stats_char, get_project_stats_char]
    have := hkeysperm.length_eq
    simpa using this
  have htl : (get_project_stats rd (scan_directory cfg root entries1)).total_lines =
      (get_project_stats rd (scan_directory cfg root entries2)).total_lines := by
    rw [get_project_stats_char, get_project_stats_char]
    exact (hjoin.map (fileLineCount rd)).sum_eq
  have hLnodup1 : (((scan_directory cfg root entries1).flatMap Prod.snd).foldl
      (fun L e => bumpLang L (get_language_from_extension (pySuffix (entryName e))))
      []).Nodup := by
    exact (bumpfold_keys_nodup _ _ [] (by simp)).of_map
  have hLnodup2 : (((scan_directory cfg root entries2).flatMap Prod.snd).foldl
      (fun L e => bumpLang L (get_language_from_extension (pySuffix (entryName e))))
      []).Nodup := by
    exact (bumpfold_keys_nodup _ _ [] (by simp)).of_map
  have hLperm : List.Perm
      (((scan_directory cfg root entries1).flatMap Prod.snd).foldl
        (fun L e => bumpLang L (get_language_from_extension (pySuffix (entryName e)))) [])
      (((scan_directory cfg root entries2).flatMap Prod.snd).foldl
        (fun L e => bumpLang L (get_language_from_extension (pySuffix (entryName e)))) []) := by
    refine (List.perm_ext_iff_of_nodup hLnodup1 hLnodup2).mpr ?_
    intro a
    obtain ⟨k, v⟩ := a
    rw [mem_iff_lookupNat _ (bumpfold_keys_nodup _ _ [] (by simp)) k v,
      mem_iff_lookupNat _ (bumpfold_keys_nodup _ _ [] (by simp)) k v,
      lookupNat_bumpfold, lookupNat_bumpfold]
    have hcnt : (((scan_directory cfg root entries1).flatMap Prod.snd).map
        (fun e => get_language_from_extension (pySuffix (entryName e)))).count k =
        (((scan_directory cfg root entries2).flatMap Prod.snd).map
          (fun e => get_language_from_extension (pySuffix (entryName e)))).count k :=
      (hjoin.map _).count_eq k
    rw [hcnt]
  have hlang : sortLangs (get_project_stats rd (scan_directory cfg root entries1)).languages =
      sortLangs (get_project_stats rd (scan_directory cfg root entries2)).languages := by
    rw [get_project_stats_char, get_project_stats_char]
    unfold sortLangs
    exact List.eq_of_perm_of_sorted
      ((List.perm_insertionSort _ _).trans (hLperm.trans (List.perm_insertionSort _ _).symm))
      (List.sorted_insertionSort _ _) (List.sorted_insertionSort _ _)
  have hsum : generate_summary root (scan_directory cfg root entries1)
      (get_project_stats rd (scan_directory cfg root entries1)) =
      generate_summary root (scan_directory cfg root entries2)
        (get_project_stats rd (scan_directory cfg root entries2)) := by
    unfold generate_summary
    rw [htf, htd, htl, hlang, hdirs]
    have hfun : (fun d => "  " ++ d ++ ": " ++
        natStr (lookupGroup (scan_directory cfg root entries1) d).length ++ " files") =
        (fun d => "  " ++ d ++ ": " ++
          natStr (lookupGroup (scan_directory cfg root entries2) d).length ++ " files") :=
      funext (fun d => by rw [hglen d])
    rw [hfun]
  have hfmt : format_directory_structure root (scan_directory cfg root entries1) =
      format_directory_structure root (scan_directory cfg root entries2) := by
    unfold format_directory_structure
    rw [hdirs]
    have hfun : (fun directory => dirHeaderLines directory ++
        (sortFilesByName (lookupGroup (scan_directory cfg root entries1) directory)).map
          (fileTreeLine root)) =
        (fun directory => dirHeaderLines directory ++
          (sortFilesByName (lookupGroup (scan_directory cfg root entries2) directory)).map
            (fileTreeLine root)) :=
      funext (fun d => by rw [hgroups d])
    rw [hfun]
  have hcode : generate_code_output rd root (scan_directory cfg root entries1) =
      generate_code_output rd root (scan_directory cfg root entries2) := by
    unfold generate_code_output
    rw [hfmt, hdirs]
    have hfun : (fun directory =>
        (sortFilesByName (lookupGroup (scan_directory cfg root entries1) directory)).flatMap
          (fileSection rd root directory)) =
        (fun directory =>
          (sortFilesByName (lookupGroup (scan_directory cfg root entries2) directory)).flatMap
            (fileSection rd root directory)) :=
      funext (fun d => by rw [hgroups d])
    rw [hfun]
  show generate_summary root (scan_directory cfg root entries1)
      (get_project_stats rd (scan_directory cfg root entries1)) ++ "\n\n" ++
      generate_code_output rd root (scan_directory cfg root entries1) =
    generate_summary root (scan_directory cfg root entries2)
      (get_project_stats rd (scan_directory cfg root entries2)) ++ "\n\n" ++
      generate_code_output rd root (scan_directory cfg root entries2)
  rw [hsum, hcode]

theorem c8_witness :
    writtenReport defaultConfig ["r"] (fun _ => .ok "x = 1")
      [⟨["r", "sub", "b.js"], true⟩, ⟨["r", "a.py"], true⟩] =
    writtenReport defaultConfig ["r"] (fun _ => .ok "x = 1")
      [⟨["r", "a.py"], true⟩, ⟨["r", "sub", "b.js"], true⟩] :=
  c8_deterministic_report defaultConfig ["r"] (fun _ => .ok "x = 1")
    [⟨["r", "sub", "b.js"], true⟩, ⟨["r", "a.py"], true⟩]
    [⟨["r", "a.py"], true⟩, ⟨["r", "sub", "b.js"], true⟩]
    (by decide) (by decide) (by decide) (by decide)
